import Mathlib

/-!
Verification of the Reminor retrieval and temporal-context engine.

This file gives a shallow embedding, in Lean 4, of the core retrieval code of
the Reminor journal application:

* `memvid_memory.py` — `MemvidMemory._direct_text_search`,
  `MemvidMemory.get_similar_entries`, `MemvidMemory.add_entry`,
  `MemvidMemory.get_emotions`;
* `backend/core/chat.py` — `ChatService.parse_date_query`,
  `ChatService.get_intelligent_context`;
* `reminor/enhanced_structured_memory.py` —
  `EnhancedStructuredMemory.get_similar_entries`;
* `enhanced_emotions_analyzer.py` — `EnhancedEmotionsAnalyzer.load_cache`,
  `EnhancedEmotionsAnalyzer.analyze_full_entry`.

Modelling conventions:

* Python strings are modelled as `List Char` (`Str`).  Python `str.lower` is
  modelled over the character set this application actually uses (ASCII plus
  the accented Italian vowels appearing in the source's own regexes and
  stop-word lists).
* Python floats are modelled as exact rationals (`ℚ`): every score in the
  embedded code is produced by sums, products by small integer constants and
  comparisons, so exact arithmetic is a faithful model of the ranking logic.
* External collaborators (the memvid BM25 index, the sentence-transformers
  embedding model, spaCy, sklearn, the Groq HTTP API, `hashlib`) are modelled
  as explicit parameters: a function or a data value standing for the results
  those collaborators return.  Everything written in the repository itself is
  translated from the source.
* Fallible code returns `Option`; a Python exception caught by a surrounding
  `try/except` is modelled by the corresponding `none` branch.
-/

/-- Python strings, modelled as lists of characters. -/
abbrev Str := List Char

/-- Convert a Lean string literal to the `Str` model. -/
def str (s : String) : Str := s.toList

/-!  Kernel-computable rational arithmetic.  The standard `Rat.add` / `Rat.mul`
do not reduce inside the kernel, so the embedding uses `mkRat`-based
equivalents (proved equal to the field operations below), keeping every
concrete evaluation decidable. -/

/-- Rational addition via `mkRat` (equal to `+`, see `qAdd_eq`). -/
def qAdd (a b : ℚ) : ℚ := mkRat (a.num * b.den + b.num * a.den) (a.den * b.den)

/-- Rational multiplication via `mkRat` (equal to `*`, see `qMul_eq`). -/
def qMul (a b : ℚ) : ℚ := mkRat (a.num * b.num) (a.den * b.den)

/-- Rational division via `Rat.divInt` (equal to `/`, see `qDiv_eq`). -/
def qDiv (a b : ℚ) : ℚ := Rat.divInt (a.num * b.den) (a.den * b.num)

theorem qAdd_eq (a b : ℚ) : qAdd a b = a + b := by
  unfold qAdd
  rw [Rat.mkRat_eq_div]
  push_cast
  have ha : (a.den : ℚ) ≠ 0 := by exact_mod_cast a.den_nz
  have hb : (b.den : ℚ) ≠ 0 := by exact_mod_cast b.den_nz
  conv_rhs => rw [← Rat.num_div_den a, ← Rat.num_div_den b]
  rw [div_add_div _ _ ha hb]
  ring_nf

theorem qMul_eq (a b : ℚ) : qMul a b = a * b := by
  unfold qMul
  rw [Rat.mkRat_eq_div]
  push_cast
  have ha : (a.den : ℚ) ≠ 0 := by exact_mod_cast a.den_nz
  have hb : (b.den : ℚ) ≠ 0 := by exact_mod_cast b.den_nz
  conv_rhs => rw [← Rat.num_div_den a, ← Rat.num_div_den b]
  rw [div_mul_div_comm]

theorem qDiv_eq (a b : ℚ) : qDiv a b = a / b := by
  unfold qDiv
  by_cases h : b = 0
  · subst h
    simp [Rat.divInt]
  · rw [Rat.divInt_eq_div]
    push_cast
    have ha : (a.den : ℚ) ≠ 0 := by exact_mod_cast a.den_nz
    have hb : (b.den : ℚ) ≠ 0 := by exact_mod_cast b.den_nz
    have hbn : (b.num : ℚ) ≠ 0 := by simpa using Rat.num_ne_zero.2 h
    conv_rhs => rw [← Rat.num_div_den a, ← Rat.num_div_den b]
    field_simp

namespace PyStr

/-- Characters treated as whitespace by Python's `str.strip()` / `str.split()`
(ASCII whitespace: space, tab, newline, carriage return, vertical tab, form
feed). -/
def isPySpace (c : Char) : Bool :=
  c = ' ' || c = '\t' || c = '\n' || c = '\r' || c = '\x0b' || c = '\x0c'

/-- Python `str.lower`, over the character set used by this application
(ASCII letters plus the accented vowels occurring in the source). -/
def pyLowerChar (c : Char) : Char :=
  if 'A' ≤ c ∧ c ≤ 'Z' then Char.ofNat (c.toNat + 32)
  else if c = 'À' then 'à'
  else if c = 'È' then 'è'
  else if c = 'É' then 'é'
  else if c = 'Ì' then 'ì'
  else if c = 'Ò' then 'ò'
  else if c = 'Ù' then 'ù'
  else c

/-- Python `s.lower()`. -/
def pyLower (s : Str) : Str := s.map pyLowerChar

/-- `bool(s.strip())` is false, i.e. the string is empty or whitespace-only. -/
def stripIsEmpty (s : Str) : Bool := s.all isPySpace

/-- Python `s.strip(chars)`: remove any of `chars` from both ends. -/
def stripBoth (chars : Str) (s : Str) : Str :=
  ((s.dropWhile (chars.contains ·)).reverse.dropWhile (chars.contains ·)).reverse

theorem length_dropWhile_le {α : Type} (p : α → Bool) (t : List α) :
    (t.dropWhile p).length ≤ t.length := by
  induction t with
  | nil => simp [List.dropWhile]
  | cons c t ih =>
    simp only [List.dropWhile]
    split
    · exact Nat.le_succ_of_le ih
    · simp

/-- Python `s.split()` (no argument): maximal runs of non-whitespace.  The
fuel argument only bounds the recursion (each step strictly shortens the
input, so `splitWs` below supplies enough); structural recursion on it keeps
the definition kernel-computable. -/
def splitWsF : Nat → Str → List Str
  | 0, _ => []
  | _, [] => []
  | fuel + 1, c :: t =>
    if isPySpace c then splitWsF fuel t
    else
      let run := c :: t.takeWhile (fun x => ¬ isPySpace x)
      run :: splitWsF fuel (t.dropWhile (fun x => ¬ isPySpace x))

/-- Python `s.split()`. -/
def splitWs (s : Str) : List Str := splitWsF (s.length + 1) s

/-- Python `needle in hay` for strings: contiguous substring test. -/
def hasSub (hay needle : Str) : Bool :=
  match hay with
  | [] => needle.isEmpty
  | c :: t => needle.isPrefixOf (c :: t) || hasSub t needle

/-- First index of `needle` in `hay` (Python `str.find`, `none` for -1). -/
def findSubIdx (needle : Str) : Str → Option Nat
  | [] => if needle.isEmpty then some 0 else none
  | c :: t =>
    if needle.isPrefixOf (c :: t) then some 0
    else (findSubIdx needle t).map (· + 1)

/-- Python `hay.count(needle)` for nonempty `needle`: non-overlapping
occurrences, scanning left to right (fuel as in `splitWsF`). -/
def countSubF (needle : Str) : Nat → Str → Nat
  | 0, _ => 0
  | _, [] => 0
  | fuel + 1, c :: t =>
    if needle ≠ [] ∧ needle.isPrefixOf (c :: t) then
      1 + countSubF needle fuel (t.drop (needle.length - 1))
    else
      countSubF needle fuel t

/-- Python `hay.count(needle)`. -/
def countSub (needle : Str) (hay : Str) : Nat := countSubF needle (hay.length + 1) hay

/-- Python `s.replace(needle, repl)` for nonempty `needle`: replace all
non-overlapping occurrences, left to right (fuel as in `splitWsF`). -/
def replaceSubF (needle repl : Str) : Nat → Str → Str
  | 0, s => s
  | _, [] => []
  | fuel + 1, c :: t =>
    if needle ≠ [] ∧ needle.isPrefixOf (c :: t) then
      repl ++ replaceSubF needle repl fuel (t.drop (needle.length - 1))
    else
      c :: replaceSubF needle repl fuel t

/-- Python `s.replace(needle, repl)`. -/
def replaceSub (needle repl : Str) (s : Str) : Str :=
  replaceSubF needle repl (s.length + 1) s

/-- Python `"sep".join(parts)`. -/
def joinSep (sep : Str) : List Str → Str
  | [] => []
  | [x] => x
  | x :: y :: t => x ++ sep ++ joinSep sep (y :: t)

/-- Decimal digits of a natural number (Python `str(n)` for `n : Nat`). -/
def natDigits (n : Nat) : Str := (toString n).toList

/-- Zero-padded two-digit rendering, as in the `:02d` format spec. -/
def pad2 (n : Nat) : Str := if n < 10 then '0' :: natDigits n else natDigits n

/-- Parse a list of decimal digit characters into a `Nat` (Python `int`). -/
def digitsToNat (s : Str) : Nat :=
  s.foldl (fun acc c => acc * 10 + (c.toNat - '0'.toNat)) 0

end PyStr

section Sorting

variable {α : Type} {β : Type} [LinearOrder β]

/-- Insert `x` into a list already sorted by `key` descending, before the
first element whose key is not larger — this reproduces the stability of
Python's `sorted`/`list.sort` (equal keys keep their original order). -/
def insertByDesc (key : α → β) (x : α) : List α → List α
  | [] => [x]
  | y :: t => if key y ≤ key x then x :: y :: t else y :: insertByDesc key x t

/-- Stable sort by `key` descending (Python `sorted(..., key=..., reverse)` /
`sorted(..., key=lambda r: -score)`). -/
def sortByDesc (key : α → β) : List α → List α
  | [] => []
  | x :: t => insertByDesc key x (sortByDesc key t)

theorem mem_insertByDesc (key : α → β) (x : α) (l : List α) (a : α) :
    a ∈ insertByDesc key x l ↔ a = x ∨ a ∈ l := by
  induction l with
  | nil => simp [insertByDesc]
  | cons y t ih =>
    simp only [insertByDesc]
    split
    · simp
    · simp [ih]; tauto

theorem mem_sortByDesc (key : α → β) (l : List α) (a : α) :
    a ∈ sortByDesc key l ↔ a ∈ l := by
  induction l with
  | nil => simp [sortByDesc]
  | cons x t ih => simp [sortByDesc, mem_insertByDesc, ih]

theorem pairwise_insertByDesc (key : α → β) (x : α) (l : List α)
    (h : l.Pairwise (fun a b => key b ≤ key a)) :
    (insertByDesc key x l).Pairwise (fun a b => key b ≤ key a) := by
  induction l with
  | nil => simp [insertByDesc]
  | cons y t ih =>
    simp only [insertByDesc]
    rcases List.pairwise_cons.1 h with ⟨hy, ht⟩
    split
    · rename_i hle
      refine List.pairwise_cons.2 ⟨?_, h⟩
      intro b hb
      rcases List.mem_cons.1 hb with rfl | hbt
      · exact hle
      · exact le_trans (hy b hbt) hle
    · rename_i hgt
      refine List.pairwise_cons.2 ⟨?_, ih ht⟩
      intro b hb
      rcases (mem_insertByDesc key x t b).1 hb with rfl | hbt
      · exact le_of_not_le hgt
      · exact hy b hbt

theorem pairwise_sortByDesc (key : α → β) (l : List α) :
    (sortByDesc key l).Pairwise (fun a b => key b ≤ key a) := by
  induction l with
  | nil => simp [sortByDesc]
  | cons x t ih => exact pairwise_insertByDesc key x _ ih

theorem length_insertByDesc (key : α → β) (x : α) (l : List α) :
    (insertByDesc key x l).length = l.length + 1 := by
  induction l with
  | nil => rfl
  | cons y t ih =>
    simp only [insertByDesc]
    split <;> simp [ih]

theorem length_sortByDesc (key : α → β) (l : List α) :
    (sortByDesc key l).length = l.length := by
  induction l with
  | nil => rfl
  | cons x t ih => simp [sortByDesc, length_insertByDesc, ih]

end Sorting

section Assoc

variable {γ : Type}

/-- Lookup in an insertion-ordered association list with `Str` keys
(a Python `dict` keyed by date). -/
def lookupAssoc (l : List (Str × γ)) (k : Str) : Option γ :=
  (l.find? (fun p => p.1 == k)).map (·.2)

/-- In-place update of the first binding of `k` (Python `d[k] = v` for a key
already present keeps its insertion position). -/
def updateAssoc (l : List (Str × γ)) (k : Str) (v : γ) : List (Str × γ) :=
  match l with
  | [] => [(k, v)]
  | p :: t => if p.1 == k then (k, v) :: t else p :: updateAssoc t k v

theorem lookupAssoc_cons (p : Str × γ) (t : List (Str × γ)) (k : Str) :
    lookupAssoc (p :: t) k = if p.1 == k then some p.2 else lookupAssoc t k := by
  simp only [lookupAssoc, List.find?_cons]
  split <;> rename_i h
  · rw [if_pos h]; rfl
  · rw [if_neg (by simp_all)]

theorem lookupAssoc_updateAssoc_self (l : List (Str × γ)) (k : Str) (v : γ) :
    lookupAssoc (updateAssoc l k v) k = some v := by
  induction l with
  | nil => simp [updateAssoc, lookupAssoc, List.find?_cons]
  | cons p t ih =>
    simp only [updateAssoc]
    split
    · simp [lookupAssoc_cons]
    · rename_i hne
      rw [lookupAssoc_cons, if_neg hne]
      exact ih

theorem lookupAssoc_updateAssoc_other (l : List (Str × γ)) (k k' : Str) (v : γ)
    (h : k' ≠ k) : lookupAssoc (updateAssoc l k v) k' = lookupAssoc l k' := by
  induction l with
  | nil =>
    have h1 : (k == k') = false := by simpa using fun e => h e.symm
    simp [updateAssoc, lookupAssoc_cons, h1, lookupAssoc]
  | cons p t ih =>
    simp only [updateAssoc]
    split
    · rename_i he
      have hpk : p.1 = k := by simpa using he
      have h1 : (k == k') = false := by simpa using fun e => h e.symm
      rw [lookupAssoc_cons, lookupAssoc_cons]
      simp only [h1, hpk]
      simp
    · rw [lookupAssoc_cons, lookupAssoc_cons]
      split
      · rfl
      · exact ih

end Assoc

namespace Memvid

open PyStr

/-- Python regex word characters (`\w`) for the character set used by this
application: ASCII alphanumerics, underscore, and the accented Italian vowels
appearing in the source. -/
def isWordChar (c : Char) : Bool :=
  c.isAlphanum || c = '_' || (str "àèéìòùÀÈÉÌÒÙ").contains c

/-- The character class of `re.findall(r'\b[a-zA-ZàèéìòùÀÈÉÌÒÙ]+\b', ...)`
in `MemvidMemory._direct_text_search`. -/
def isLetterClass (c : Char) : Bool :=
  ('a' ≤ c ∧ c ≤ 'z') || ('A' ≤ c ∧ c ≤ 'Z') || (str "àèéìòùÀÈÉÌÒÙ").contains c

/-- Maximal runs of word characters in a string (fuel as in
`PyStr.splitWsF`). -/
def wordRunsF : Nat → Str → List Str
  | 0, _ => []
  | _, [] => []
  | fuel + 1, c :: t =>
    if isWordChar c then
      (c :: t.takeWhile isWordChar) :: wordRunsF fuel (t.dropWhile isWordChar)
    else wordRunsF fuel t

/-- Maximal runs of word characters in a string. -/
def wordRuns (s : Str) : List Str := wordRunsF (s.length + 1) s

/-- `re.findall(r'\b[a-zA-ZàèéìòùÀÈÉÌÒÙ]+\b', s)`: a maximal word-character
run is returned exactly when it consists entirely of letters of the class
(a run containing a digit or underscore has no word boundary inside it, so
the pattern cannot match any part of it). -/
def extractTokens (s : Str) : List Str :=
  (wordRuns s).filter (fun r => r.all isLetterClass)

/-- The Italian stop-word set of `MemvidMemory._direct_text_search`. -/
def directStopwords : List Str :=
  [str "il", str "lo", str "la", str "i", str "gli", str "le", str "un",
   str "uno", str "una",
   str "di", str "a", str "da", str "in", str "con", str "su", str "per",
   str "tra", str "fra",
   str "che", str "chi", str "cosa", str "come", str "dove", str "quando",
   str "perché",
   str "e", str "o", str "ma", str "se", str "non", str "più", str "anche",
   str "solo",
   str "mi", str "ti", str "ci", str "vi", str "si", str "me", str "te",
   str "lui", str "lei",
   str "noi", str "voi", str "loro", str "mio", str "tuo", str "suo",
   str "nostro",
   str "questo", str "quello", str "quale", str "quanto", str "tutto",
   str "ogni",
   str "conosci", str "sai", str "dimmi", str "parlami", str "raccontami",
   str "dici"]

/-- The Italian month-name map of `MemvidMemory._direct_text_search`
(`mesi_map`), in source order. -/
def mesiMap : List (Str × Str) :=
  [(str "gennaio", str "01"), (str "febbraio", str "02"),
   (str "marzo", str "03"), (str "aprile", str "04"),
   (str "maggio", str "05"), (str "giugno", str "06"),
   (str "luglio", str "07"), (str "agosto", str "08"),
   (str "settembre", str "09"), (str "ottobre", str "10"),
   (str "novembre", str "11"), (str "dicembre", str "12")]

/-- Keyword extraction of `_direct_text_search`: tokens of the lowered query,
minus stop words and tokens shorter than 3 characters. -/
def directKeywords (ql : Str) : List Str :=
  (extractTokens ql).filter (fun w => ¬ directStopwords.contains w ∧ 3 ≤ w.length)

/-- Month detection of `_direct_text_search`: the first month of `mesi_map`
whose name occurs as a substring of the lowered query. -/
def monthDetect (ql : Str) : Option (Str × Str) :=
  mesiMap.find? (fun p => hasSub ql p.1)

/-- A search result (`SearchHit` dict in the source). -/
structure Hit where
  date : Str
  content : Str
  score : ℚ
  title : Str
deriving Repr, DecidableEq

/-- The keyword loop of `_direct_text_search`: accumulate `(matched, score,
best_idx)` over the keyword list.  `best_idx` tracks the largest
first-occurrence index seen so far (`if idx > best_idx`). -/
def keywordScan (cl : Str) : List Str → (Bool × ℚ × Nat) → (Bool × ℚ × Nat)
  | [], acc => acc
  | k :: rest, (m, sc, bi) =>
    if hasSub cl k then
      let cnt := countSub k cl
      let idx := (findSubIdx k cl).getD 0
      keywordScan cl rest
        (true, qAdd sc (qMul (cnt : ℚ) ((5 + k.length : Nat) : ℚ)),
         if bi < idx then idx else bi)
    else
      keywordScan cl rest (m, sc, bi)

/-- The snippet construction of `_direct_text_search`: the slice
`content[max(0, i-100) : min(len, i+300)]`, with ellipses exactly when
the slice is truncated, falling back to `content[:300] + "..."` when the
ellipsed slice strips to empty. -/
def mkSnippet (content : Str) (bestIdx : Nat) : Str :=
  let start := bestIdx - 100
  let stop := min content.length (bestIdx + 300)
  let core := (content.drop start).take (stop - start)
  let s1 := if 0 < start then str "..." ++ core else core
  let s2 := if stop < content.length then s1 ++ str "..." else s1
  if stripIsEmpty s2 then content.take 300 ++ str "..." else s2

/-- Per-entry scoring of `_direct_text_search`: month bonus (score 15.0 and
matched) when the month filter occurs in the date, plus the keyword loop;
`none` when the entry matched nothing. -/
def scoreEntry (keywords : List Str) (monthFilter : Option Str)
    (date content : Str) : Option Hit :=
  let base : Bool × ℚ :=
    match monthFilter with
    | some f => if hasSub date f then (true, 15) else (false, 0)
    | none => (false, 0)
  let cl := pyLower content
  let r := keywordScan cl keywords (base.1, base.2, 0)
  if r.1 then
    some ⟨date, mkSnippet content r.2.2, r.2.1, str "Diario " ++ date⟩
  else
    none

/-- The month filter of `_direct_text_search` (`month_filter = f"-{num}-"`),
when a month name occurs in the query. -/
def directMonthFilter (ql : Str) : Option Str :=
  match monthDetect ql with
  | some (_, num) => some ('-' :: (num ++ ['-']))
  | none => none

/-- The keyword list of `_direct_text_search`: the extracted tokens plus,
when a month is detected, that month's name appended once more
(`keywords.append(mese)`). -/
def directKeywordList (ql : Str) : List Str :=
  match monthDetect ql with
  | some (name, _) => directKeywords ql ++ [name]
  | none => directKeywords ql

/-- `MemvidMemory._direct_text_search(query, limit)`.  `entries` is the
date → content map in insertion order. -/
def direct_text_search (entries : List (Str × Str)) (query : Str)
    (limit : Nat) : List Hit :=
  let ql := pyLower query
  let mf := directMonthFilter ql
  let kws := directKeywordList ql
  let results := entries.filterMap (fun p => scoreEntry kws mf p.1 p.2)
  (sortByDesc (fun h : Hit => h.score) results).take limit

/-- A raw BM25 hit as returned by `self.mem.find` (external memvid SDK). -/
structure BmHit where
  title : Str
  snippet : Str
  score : ℚ
deriving Repr, DecidableEq

/-- Match `\d{4}-\d{2}-\d{2}` at the start of a string. -/
def matchDateAt (s : Str) : Option Str :=
  match s with
  | a :: b :: c :: d :: x :: e :: f :: y :: g :: h :: _ =>
    if a.isDigit ∧ b.isDigit ∧ c.isDigit ∧ d.isDigit ∧ x = '-' ∧
       e.isDigit ∧ f.isDigit ∧ y = '-' ∧ g.isDigit ∧ h.isDigit then
      some [a, b, c, d, x, e, f, y, g, h]
    else none
  | _ => none

/-- `re.search(r'\d{4}-\d{2}-\d{2}', s)`: first match, scanning left to
right. -/
def searchDate : Str → Option Str
  | [] => none
  | c :: t =>
    match matchDateAt (c :: t) with
    | some d => some d
    | none => searchDate t

/-- Conversion of a BM25 hit into a result dict as in `get_similar_entries`
step 3 (date extracted from the title, `'unknown'` when absent). -/
def bmToHit (h : BmHit) : Hit :=
  { date := (searchDate h.title).getD (str "unknown"),
    content := h.snippet, score := h.score, title := h.title }

/-- Lookup by date in the insertion-ordered `all_results` dict. -/
def lookupHit (l : List Hit) (d : Str) : Option Hit :=
  l.find? (fun h => h.date == d)

/-- Python `all_results[date] = r` when `date` is already a key: the binding
keeps its insertion position. -/
def updateHit : List Hit → Hit → List Hit
  | [], r => [r]
  | h :: t, r => if h.date == r.date then r :: t else h :: updateHit t r

/-- The merge step used by the semantic and direct phases of
`get_similar_entries`: insert if the date is absent, overwrite only on a
strictly higher score. -/
def fuseOverwrite (acc : List Hit) (r : Hit) : List Hit :=
  match lookupHit acc r.date with
  | none => acc ++ [r]
  | some old => if old.score < r.score then updateHit acc r else acc

/-- The merge step used by the BM25 phase of `get_similar_entries`: insert
only if the date is absent (`if date_str not in all_results`). -/
def fuseAddOnly (acc : List Hit) (r : Hit) : List Hit :=
  match lookupHit acc r.date with
  | none => acc ++ [r]
  | some _ => acc

/-- The `r['score'] = r['score'] * 20` scaling applied to semantic hits. -/
def scaleSemantic (r : Hit) : Hit := { r with score := qMul r.score 20 }

/-- `MemvidMemory.get_similar_entries(query, top_n)`.
`semanticResults` stands for the output of `_semantic_search(query, top_n*2)`
(it depends on the external embedding model; an absent model yields `[]`);
`bm25` stands for `self.mem.find(query, k=top_n)` (`none` when memvid is
absent or the call raised — both leave `all_results` untouched). -/
def get_similar_entries (semanticResults : List Hit)
    (entries : List (Str × Str)) (query : Str) (bm25 : Option (List BmHit))
    (top_n : Nat) : List Hit :=
  let r1 := semanticResults.foldl (fun acc r => fuseOverwrite acc (scaleSemantic r)) []
  let r2 := (direct_text_search entries query (top_n * 2)).foldl fuseOverwrite r1
  let r3 :=
    match bm25 with
    | none => r2
    | some hits => hits.foldl (fun acc h => fuseAddOnly acc (bmToHit h)) r2
  (sortByDesc (fun h : Hit => h.score) r3).take top_n

end Memvid

namespace Json

/-!
Model of the fragment of Python's `json` module exercised by
`MemvidMemory.get_emotions` / `save_emotions`: objects with string keys,
strings (with `\"` and `\\` escapes as produced by `json.dumps`), and
numeric literals (kept as their character representation — the decode
pipeline never does arithmetic on them).  Arrays, booleans, `null` and
`\uXXXX` escapes are not produced by `save_emotions` and are not modelled.
-/

mutual
inductive JVal where
  | jstr (s : Str)
  | jnum (lit : Str)
  | jobj (ms : JMembers)
deriving Repr, DecidableEq

inductive JMembers where
  | mnil
  | mcons (k : Str) (v : JVal) (rest : JMembers)
deriving Repr, DecidableEq
end

/-- The escaping applied by `json.dumps` to string content (for the
character set used here: quote and backslash). -/
def jsonEscape : Str → Str
  | [] => []
  | c :: t => (if c = '"' ∨ c = '\\' then ['\\', c] else [c]) ++ jsonEscape t

mutual
/-- `json.dumps` with default separators (`", "` and `": "`). -/
def dumpsVal : JVal → Str
  | .jstr s => '"' :: (jsonEscape s ++ ['"'])
  | .jnum l => l
  | .jobj ms => '{' :: (dumpsMembers ms ++ ['}'])

def dumpsMembers : JMembers → Str
  | .mnil => []
  | .mcons k v .mnil => '"' :: (jsonEscape k ++ ['"', ':', ' '] ++ dumpsVal v)
  | .mcons k v (.mcons k2 v2 rest) =>
    '"' :: (jsonEscape k ++ ['"', ':', ' '] ++ dumpsVal v ++ [',', ' '] ++
      dumpsMembers (.mcons k2 v2 rest))
end

def isJsonWs (c : Char) : Bool := c = ' ' || c = '\t' || c = '\n' || c = '\r'

def skipWs (s : Str) : Str := s.dropWhile isJsonWs

def isNumStart (c : Char) : Bool := c.isDigit || c = '-'

def isNumChar (c : Char) : Bool :=
  c.isDigit || c = '.' || c = '-' || c = '+' || c = 'e' || c = 'E'

/-- JSON string escapes understood by the decoder. -/
def unescChar (c : Char) : Option Char :=
  if c = '"' then some '"'
  else if c = '\\' then some '\\'
  else if c = '/' then some '/'
  else if c = 'n' then some '\n'
  else if c = 't' then some '\t'
  else if c = 'r' then some '\r'
  else if c = 'b' then some '\x08'
  else if c = 'f' then some '\x0c'
  else none

/-- Parse the body of a JSON string (after the opening quote), returning the
decoded content and the remainder after the closing quote (fuel as in
`PyStr.splitWsF`). -/
def parseStrBodyF : Nat → Str → Option (Str × Str)
  | 0, _ => none
  | _, [] => none
  | fuel + 1, c :: r =>
    if c = '"' then some ([], r)
    else if c = '\\' then
      match r with
      | [] => none
      | e :: r2 =>
        match unescChar e with
        | some u => (parseStrBodyF fuel r2).map (fun p => (u :: p.1, p.2))
        | none => none
    else (parseStrBodyF fuel r).map (fun p => (c :: p.1, p.2))

/-- Parse the body of a JSON string. -/
def parseStrBody (s : Str) : Option (Str × Str) := parseStrBodyF (s.length + 1) s

/-- Parse a numeric literal: the maximal run of number characters. -/
def parseNumLit (s : Str) : Option (Str × Str) :=
  let lit := s.takeWhile isNumChar
  if lit.isEmpty then none else some (lit, s.dropWhile isNumChar)

mutual
/-- Parse one JSON value.  The fuel bounds the nesting depth; `loads` supplies
more fuel than any input can need. -/
def parseVal : Nat → Str → Option (JVal × Str)
  | 0, _ => none
  | fuel + 1, s0 =>
    match skipWs s0 with
    | [] => none
    | c :: t =>
      if c = '"' then (parseStrBody t).map (fun p => (JVal.jstr p.1, p.2))
      else if c = '{' then
        match skipWs t with
        | '}' :: r => some (JVal.jobj JMembers.mnil, r)
        | u => (parseMembers fuel u).map (fun p => (JVal.jobj p.1, p.2))
      else if isNumStart c then
        (parseNumLit (c :: t)).map (fun p => (JVal.jnum p.1, p.2))
      else none

/-- Parse the members of a JSON object, starting at the first key. -/
def parseMembers : Nat → Str → Option (JMembers × Str)
  | 0, _ => none
  | fuel + 1, s =>
    match skipWs s with
    | '"' :: t =>
      match parseStrBody t with
      | some (k, r1) =>
        match skipWs r1 with
        | ':' :: r2 =>
          match parseVal fuel r2 with
          | some (v, r3) =>
            match skipWs r3 with
            | ',' :: r4 =>
              (parseMembers fuel r4).map (fun p => (JMembers.mcons k v p.1, p.2))
            | '}' :: r4 => some (JMembers.mcons k v JMembers.mnil, r4)
            | _ => none
          | none => none
        | _ => none
      | none => none
    | _ => none
end

/-- `json.loads`: parse one value and require only whitespace to remain. -/
def loads (s : Str) : Option JVal :=
  match parseVal (s.length + 1) s with
  | some (v, r) => if (skipWs r).isEmpty then some v else none
  | none => none

end Json

namespace Memvid

open PyStr Json

/-- The defensive decode pipeline of `MemvidMemory.get_emotions`: strict
decode; if the result is still a string, decode again (a failure here lands
in the `except` branch); on failure, strip stray quotes, unescape `\"`, and
retry once; `none` when every attempt fails (the caller's `except` returns
`None`). -/
def decode_emotions_field (s : Str) : Option JVal :=
  let primary :=
    match loads s with
    | some (JVal.jstr t) => loads t
    | some v => some v
    | none => none
  match primary with
  | some v => some v
  | none => loads (replaceSub (str "\\\"") (str "\"") (stripBoth (str "\"") s))

/-- A hit returned by `self.mem.find` in `get_emotions` (title and uri). -/
structure SHit where
  title : Str
  uri : Str
deriving Repr, DecidableEq

/-- The external memvid connection as used by `get_emotions`: `find` returns
hits; `frame uri` returns the `emotions` field of the frame's
`extra_metadata` (defaulted to the empty string by `.get('emotions', '')`),
or `none` when the call raised. -/
structure MemConn where
  find : Str → Nat → List SHit
  frame : Str → Option Str

/-- The hit loop of `get_emotions`: the first hit with the exact title and a
nonempty uri and a nonempty emotions field decides the outcome; a raised
`frame` call or a fully failed decode is caught by the outer handler and
yields `None`. -/
def getEmotionsLoop (m : MemConn) (date : Str) : List SHit → Option JVal
  | [] => none
  | hit :: rest =>
    if hit.title == str "Emozioni " ++ date then
      if hit.uri ≠ [] then
        match m.frame hit.uri with
        | none => none
        | some estr =>
          if estr ≠ [] then decode_emotions_field estr
          else getEmotionsLoop m date rest
      else getEmotionsLoop m date rest
    else getEmotionsLoop m date rest

/-- `MemvidMemory.get_emotions(date)`. -/
def get_emotions (mem : Option MemConn) (date : Str) : Option JVal :=
  match mem with
  | none => none
  | some m => getEmotionsLoop m date (m.find (str "Emozioni " ++ date) 5)

/-- A document inserted into memvid by `add_entry` / `_create_and_index`. -/
structure PutDoc where
  title : Str
  label : Str
  text : Str
  mdate : Str
  mfullText : Str
deriving Repr, DecidableEq

/-- The document built by `add_entry`. -/
def mkPutDoc (date content : Str) : PutDoc :=
  ⟨str "Diario " ++ date, str "diary", content, date, content⟩

/-- Observable state of a `MemvidMemory` instance: the document index
(`none` when memvid is unavailable), the entries map, the in-memory
embeddings map, and the persisted embeddings file. -/
structure MemvidState where
  mem : Option (List PutDoc)
  entries : List (Str × Str)
  embeddings : List (Str × List ℚ)
  embeddingsFile : Option (List (Str × List ℚ))

/-- `MemvidMemory.add_entry(date, content)`.  `put` models
`self.mem.put(...)` (external SDK; `none` = raised, caught by the
`except`); `encode` models the optional embedding model (its own failures
are caught and leave the embeddings unchanged, which is subsumed by
choosing `encode = none` or a total `enc`). -/
def add_entry (put : List PutDoc → PutDoc → Option (List PutDoc))
    (encode : Option (Str → List ℚ)) (st : MemvidState)
    (date content : Str) : Bool × MemvidState :=
  match st.mem with
  | none => (false, st)
  | some m =>
    if stripIsEmpty content then (false, st)
    else
      match put m (mkPutDoc date content) with
      | none => (false, st)
      | some m2 =>
        let st1 := { st with mem := some m2,
                             entries := updateAssoc st.entries date content }
        match encode with
        | none => (true, st1)
        | some enc =>
          let st2 := { st1 with
            embeddings := updateAssoc st1.embeddings date (enc content) }
          let st3 := { st2 with
            embeddingsFile :=
              if st2.embeddings.isEmpty then st2.embeddingsFile
              else some st2.embeddings }
          (true, st3)

end Memvid

namespace ESS

open PyStr

/-- `word.strip('.,!?():')` in `EnhancedStructuredMemory.get_similar_entries`. -/
def stripPunct (w : Str) : Str := stripBoth (str ".,!?():") w

/-- Step 1 of `EnhancedStructuredMemory.get_similar_entries`: collect
`(date, count, entity)` triples for every query word that, once cleaned and
of length ≥ 3, is a key of the entity index.  The entity index (built by
`_build_entity_index` from spaCy output) is a parameter:
`entity → (date → count)` in insertion order. -/
def entityMatches (idx : List (Str × List (Str × Nat))) (text : Str) :
    List (Str × Nat × Str) :=
  (splitWs (pyLower text)).foldl (fun acc w =>
    let cw := stripPunct w
    if 3 ≤ cw.length then
      match lookupAssoc idx cw with
      | some dm => acc ++ dm.map (fun p => (p.1, p.2, cw))
      | none => acc
    else acc) []

/-- Grouping of entity matches by date, summing the counts
(`date_scores[date] += count`). -/
def groupDateScores (ms : List (Str × Nat × Str)) : List (Str × ℚ) :=
  ms.foldl (fun acc m =>
    match lookupAssoc acc m.1 with
    | some s => updateAssoc acc m.1 (qAdd s (m.2.1 : ℚ))
    | none => acc ++ [(m.1, (m.2.1 : ℚ))]) []

/-- `EnhancedStructuredMemory.get_similar_entries(text, top_n)`.
`fallback` stands for the return value of the TF-IDF/spaCy semantic branch
(step 3), which depends on external sklearn and spaCy models. -/
def ess_get_similar_entries (idx : List (Str × List (Str × Nat)))
    (entries : List (Str × Str)) (fallback : List (Str × ℚ)) (text : Str)
    (top_n : Nat) : List (Str × ℚ) :=
  let em := entityMatches idx text
  if em ≠ [] then
    (sortByDesc Prod.snd (groupDateScores em)).take top_n
  else
    let qw := splitWs (pyLower text)
    let valid := qw.filter (fun w => 3 ≤ w.length)
    let km := entries.foldl (fun acc p =>
      let el := pyLower p.2
      let nFound := (valid.filter (fun w => hasSub el w)).length
      if 0 < nFound then
        acc ++ [(p.1, qDiv (nFound : ℚ) (valid.length : ℚ))]
      else acc) []
    let km2 := sortByDesc Prod.snd km
    match km2 with
    | top :: _ => if mkRat 1 4 ≤ top.2 then km2.take top_n else fallback
    | [] => fallback

end ESS

namespace Chat

open PyStr

/-- The current date (`datetime.now()`), passed explicitly. -/
structure PDate where
  y : Nat
  m : Nat
  d : Nat
deriving Repr, DecidableEq

def isLeap (y : Nat) : Bool := (y % 4 = 0 ∧ y % 100 ≠ 0) ∨ y % 400 = 0

def daysInMonth (y m : Nat) : Nat :=
  if m = 2 then (if isLeap y then 29 else 28)
  else if m = 4 ∨ m = 6 ∨ m = 9 ∨ m = 11 then 30
  else 31

/-- `datetime.now() - timedelta(days=1)` on the date components. -/
def prevDate (p : PDate) : PDate :=
  if 1 < p.d then ⟨p.y, p.m, p.d - 1⟩
  else if 1 < p.m then ⟨p.y, p.m - 1, daysInMonth p.y (p.m - 1)⟩
  else ⟨p.y - 1, 12, 31⟩

/-- `f"{year}-{month:02d}-{day:02d}"` (equal to `strftime("%Y-%m-%d")` for
four-digit years). -/
def fmtDate (y m d : Nat) : Str :=
  natDigits y ++ '-' :: pad2 m ++ '-' :: pad2 d

def fmtPDate (p : PDate) : Str := fmtDate p.y p.m p.d

/-- Python regex whitespace (`\s`, ASCII). -/
def isReWs (c : Char) : Bool := isPySpace c

/-- A regex step matcher: given the previous character (for `\b`) and the
remaining input, return the captured group and the total number of
characters consumed by the match. -/
abbrev Matcher := Option Char → Str → Option (Str × Nat)

/-- `re.findall` driver: scan left to right, restarting after each
non-overlapping match, tracking the character before the current position
for word boundaries (fuel as in `PyStr.splitWsF`: every step strictly
shortens the input, and `scanPat` supplies enough fuel). -/
def scanPatF (step : Matcher) : Nat → Option Char → Str → List Str
  | 0, _, _ => []
  | _, _, [] => []
  | fuel + 1, prev, c :: t =>
    match step prev (c :: t) with
    | some (cap, n) =>
      cap :: scanPatF step fuel (((c :: t).take n).getLast?) (t.drop (n - 1))
    | none => scanPatF step fuel (some c) t

/-- `re.findall` over a whole string. -/
def scanPat (step : Matcher) (prev : Option Char) (s : Str) : List Str :=
  scanPatF step (s.length + 1) prev s

/-- `\s+` followed by a literal (used after the day group; the literals are
month names, which never start with whitespace, so greedy `\s+` needs no
backtracking).  Returns the number of characters consumed. -/
def matchWsLit (lit : Str) (s : Str) : Option Nat :=
  let w := (s.takeWhile isReWs).length
  if 1 ≤ w ∧ lit.isPrefixOf (s.drop w) then some (w + lit.length) else none

/-- `(\d{1,2})\s+lit` at the current position: `\d{1,2}` is greedy, trying
two digits before one. -/
def matchDayMonth (lit : Str) (s : Str) : Option (Str × Nat) :=
  match s with
  | d1 :: d2 :: rest =>
    if d1.isDigit then
      if d2.isDigit then
        match matchWsLit lit rest with
        | some n => some ([d1, d2], 2 + n)
        | none =>
          match matchWsLit lit (d2 :: rest) with
          | some n => some ([d1], 1 + n)
          | none => none
      else
        match matchWsLit lit (d2 :: rest) with
        | some n => some ([d1], 1 + n)
        | none => none
    else none
  | [d1] =>
    if d1.isDigit then none else none
  | [] => none

/-- `lit\s+(\d{1,2})` at the current position. -/
def matchMonthDay (lit : Str) (s : Str) : Option (Str × Nat) :=
  if lit.isPrefixOf s then
    let s1 := s.drop lit.length
    let w := (s1.takeWhile isReWs).length
    if 1 ≤ w then
      match s1.drop w with
      | d1 :: d2 :: _ =>
        if d1.isDigit then
          if d2.isDigit then some ([d1, d2], lit.length + w + 2)
          else some ([d1], lit.length + w + 1)
        else none
      | [d1] => if d1.isDigit then some ([d1], lit.length + w + 1) else none
      | [] => none
    else none
  else none

/-- Word characters for `\b` (Python `\w` over this application's character
set). -/
def isWordCharB (c : Char) : Bool := Memvid.isWordChar c

/-- `\b` after the match: the next character is absent or not a word
character. -/
def boundaryAfter : Str → Bool
  | [] => true
  | c :: _ => ¬ isWordCharB c

/-- `\b` before the match: no previous character, or it is not a word
character. -/
def boundaryBefore (prev : Option Char) : Bool :=
  match prev with
  | none => true
  | some p => ¬ isWordCharB p

/-- `\bil\s+(\d{1,2})\b` at the current position (greedy digits with
backtracking against the trailing `\b`). -/
def matchIl : Matcher := fun prev s =>
  if boundaryBefore prev then
    match s with
    | 'i' :: 'l' :: rest =>
      let w := (rest.takeWhile isReWs).length
      if 1 ≤ w then
        match rest.drop w with
        | d1 :: d2 :: r2 =>
          if d1.isDigit then
            if d2.isDigit ∧ boundaryAfter r2 then some ([d1, d2], 2 + w + 2)
            else if ¬ d2.isDigit ∧ boundaryAfter (d2 :: r2) then
              some ([d1], 2 + w + 1)
            else none
          else none
        | [d1] => if d1.isDigit then some ([d1], 2 + w + 1) else none
        | [] => none
      else none
    | _ => none
  else none

/-- The ordinal suffixes of the English `the`-pattern. -/
def ordSuffix : Str → Bool
  | a :: b :: _ =>
    (a = 's' ∧ b = 't') ∨ (a = 'n' ∧ b = 'd') ∨ (a = 'r' ∧ b = 'd') ∨
      (a = 't' ∧ b = 'h')
  | _ => false

/-- After the digits of the `the`-pattern: optional greedy ordinal suffix,
then `\b`. -/
def matchTheTail (r : Str) : Option Nat :=
  if ordSuffix r ∧ boundaryAfter (r.drop 2) then some 2
  else if boundaryAfter r then some 0
  else none

/-- `\bthe\s+(\d{1,2})(?:st|nd|rd|th)?\b` at the current position. -/
def matchThe : Matcher := fun prev s =>
  if boundaryBefore prev then
    match s with
    | 't' :: 'h' :: 'e' :: rest =>
      let w := (rest.takeWhile isReWs).length
      if 1 ≤ w then
        match rest.drop w with
        | d1 :: d2 :: r2 =>
          if d1.isDigit then
            if d2.isDigit then
              match matchTheTail r2 with
              | some k => some ([d1, d2], 3 + w + 2 + k)
              | none => none
            else
              match matchTheTail (d2 :: r2) with
              | some k => some ([d1], 3 + w + 1 + k)
              | none => none
          else none
        | [d1] => if d1.isDigit then some ([d1], 3 + w + 1) else none
        | [] => none
      else none
    | _ => none
  else none

/-- The Italian month patterns of `parse_date_query` (`(\d{1,2})\s+mese`),
in source order. -/
def itPatterns : List (Str × Nat) :=
  [(str "gennaio", 1), (str "febbraio", 2), (str "marzo", 3),
   (str "aprile", 4), (str "maggio", 5), (str "giugno", 6),
   (str "luglio", 7), (str "agosto", 8), (str "settembre", 9),
   (str "ottobre", 10), (str "novembre", 11), (str "dicembre", 12)]

/-- English month names with their numbers, in source order. -/
def enMonths : List (Str × Nat) :=
  [(str "january", 1), (str "february", 2), (str "march", 3),
   (str "april", 4), (str "may", 5), (str "june", 6), (str "july", 7),
   (str "august", 8), (str "september", 9), (str "october", 10),
   (str "november", 11), (str "december", 12)]

/-- A month pattern: day before the month literal, or month literal before
the day. -/
inductive PatForm where
  | dayMonth (lit : Str) (m : Nat)
  | monthDay (lit : Str) (m : Nat)

/-- `all_patterns = it_patterns + en_patterns`: the Italian day-month
patterns followed by the English patterns, which alternate
`(\d{1,2})\s+month` and `month\s+(\d{1,2})` per month. -/
def allPatterns : List PatForm :=
  itPatterns.map (fun p => PatForm.dayMonth p.1 p.2) ++
    enMonths.flatMap (fun p => [PatForm.dayMonth p.1 p.2, PatForm.monthDay p.1 p.2])

def patMonth : PatForm → Nat
  | .dayMonth _ m => m
  | .monthDay _ m => m

/-- `re.findall(pattern, query_lower)` for a month pattern. -/
def patFindall (pf : PatForm) (ql : Str) : List Str :=
  match pf with
  | .dayMonth lit _ => scanPat (fun _ s => matchDayMonth lit s) none ql
  | .monthDay lit _ => scanPat (fun _ s => matchMonthDay lit s) none ql

/-- `if date_str not in dates: dates.append(date_str)`. -/
def pushNew (dates : List Str) (d : Str) : List Str :=
  if dates.contains d then dates else dates ++ [d]

/-- `ChatService.parse_date_query(query)` with the current date passed
explicitly.  The `try/except ValueError` of the source is dead code (the
captured day is a digit string, so `int(day)` cannot raise), hence absent
here. -/
def parse_date_query (query : Str) (now : PDate) : List Str :=
  let ql := pyLower query
  let s1 := allPatterns.foldl (fun dates pf =>
    (patFindall pf ql).foldl (fun ds day =>
      pushNew ds (fmtDate now.y (patMonth pf) (digitsToNat day))) dates) []
  let ilCaps := scanPat matchIl none ql
  let s2 := ilCaps.foldl (fun ds day =>
    pushNew ds (fmtDate now.y now.m (digitsToNat day))) s1
  let theCaps := scanPat matchThe none ql
  let s3 := theCaps.foldl (fun ds day =>
    pushNew ds (fmtDate now.y now.m (digitsToNat day))) s2
  -- Relative dates, Italian: appended without a membership check.
  let s4 := if hasSub ql (str "ieri") then s3 ++ [fmtPDate (prevDate now)] else s3
  let s5 :=
    if [str "oggi", str "stamattina", str "stasera"].any (fun w => hasSub ql w)
    then s4 ++ [fmtPDate now] else s4
  -- Relative dates, English: appended with a membership check.
  let s6 := if hasSub ql (str "yesterday") then pushNew s5 (fmtPDate (prevDate now))
            else s5
  let s7 :=
    if [str "today", str "this morning", str "tonight"].any (fun w => hasSub ql w)
    then pushNew s6 (fmtPDate now) else s6
  s7

/-- The date-labelled block appended by `get_intelligent_context` for an
explicit date with an existing entry. -/
def dateBlock (d e : Str) : Str :=
  str "=== " ++ d ++ str " ===\n" ++ e ++ ['\n']

/-- The labelled similarity block (`=== related_label ===\n` + context). -/
def simBlock (label simCtx : Str) : Str :=
  str "=== " ++ label ++ str " ===\n" ++ simCtx

/-- `ChatService.get_intelligent_context(user_id, query, ...)`.  `entries`
is the user's date → text map; `simCtx` stands for
`memory.get_rich_context(query=query, num_entries=num_entries)` (it runs the
fused search and formats hits); `relatedLabel` is the i18n translation of
`chat.related_entries`. -/
def get_intelligent_context (entries : List (Str × Str)) (query : Str)
    (now : PDate) (simCtx : Str) (relatedLabel : Str) : Str :=
  let targetDates := parse_date_query query now
  let parts := targetDates.filterMap (fun d =>
    (lookupAssoc entries d).map (fun e => dateBlock d e))
  let parts2 :=
    if simCtx ≠ [] then
      if parts ≠ [] then parts ++ [simBlock relatedLabel simCtx]
      else parts ++ [simCtx]
    else parts
  if parts2 ≠ [] then joinSep ['\n'] parts2 else simCtx

end Chat

namespace Analyzer

open PyStr

/-- Python `s.strip()` (both ends, whitespace). -/
def stripWs (s : Str) : Str :=
  ((s.dropWhile isPySpace).reverse.dropWhile isPySpace).reverse

/-- `EnhancedEmotionsAnalyzer.cache_version` (the engine's current cache
schema version). -/
def cache_version : Str := str "2.0"

/-- `EnhancedEmotionsAnalyzer.load_cache`: the persisted cache file (already
JSON-parsed; `none` when the file is absent or unreadable) is accepted only
when its `_version` equals the current version, and is otherwise discarded
whole. -/
def load_cache {α : Type} (persisted : Option (Str × List (Str × α)))
    (ver : Str) : List (Str × α) :=
  match persisted with
  | none => []
  | some (fver, entries) => if fver == ver then entries else []

/-- The observable outcome of `analyze_full_entry`: the returned analysis,
the in-memory cache afterwards, the cache file written by `save_cache`
(`none` when `save_cache` was not called), and whether the external analysis
(the Groq API call) was invoked. -/
structure AnalyzeOut (α : Type) where
  result : α
  cache : List (Str × α)
  saved : Option (Str × List (Str × α))
  invoked : Bool
deriving Repr, DecidableEq

/-- `EnhancedEmotionsAnalyzer.analyze_full_entry(text_content)`.
`hash` models `hashlib.md5(...).hexdigest()`; `emptyAnalysis` models
`_get_empty_analysis()`; `compute` models the API request plus response
cleaning, JSON parsing, validation and profile update — `none` when the
request raised or the response JSON was malformed (both return the empty
analysis without storing). -/
def analyze_full_entry {α : Type} (hash : Str → Str) (emptyAnalysis : α)
    (compute : Str → Option α) (hasApiKey : Bool)
    (cache : List (Str × α)) (text : Str) : AnalyzeOut α :=
  if ¬ hasApiKey then ⟨emptyAnalysis, cache, none, false⟩
  else
    let h := hash text
    match lookupAssoc cache h with
    | some r => ⟨r, cache, none, false⟩
    | none =>
      if (stripWs text).length < 50 then ⟨emptyAnalysis, cache, none, false⟩
      else
        let content :=
          if 4000 < text.length then text.take 4000 ++ str "..." else text
        match compute content with
        | none => ⟨emptyAnalysis, cache, none, true⟩
        | some res =>
          let cache2 := updateAssoc cache h res
          ⟨res, cache2, some (cache_version, cache2), true⟩

end Analyzer

/-!  Claim theorems.  Each claim of the specification is settled by exactly
one theorem below (with a witness for hypotheses, and a counterexample where
the claim fails on the code). -/

open PyStr

/-- A valid calendar date string `YYYY-MM-DD`, following the specification's
notion of `CalendarDate` (month 1–12, day within the month's length).  This
is a spec-side comparator, used to check the resolver's output against the
claim; it is deliberately not derived from the code. -/
def specValidDateStr (s : Str) : Bool :=
  match s with
  | [y1, y2, y3, y4, h1, m1, m2, h2, d1, d2] =>
    y1.isDigit ∧ y2.isDigit ∧ y3.isDigit ∧ y4.isDigit ∧ h1 = '-' ∧
    m1.isDigit ∧ m2.isDigit ∧ h2 = '-' ∧ d1.isDigit ∧ d2.isDigit ∧
    (let m := digitsToNat [m1, m2]
     let d := digitsToNat [d1, d2]
     let y := digitsToNat [y1, y2, y3, y4]
     1 ≤ m ∧ m ≤ 12 ∧ 1 ≤ d ∧ d ≤ Chat.daysInMonth y m)
  | _ => false

/-- C10: `add_entry(date, content)` returns `False` and leaves the entry
map, the in-memory embeddings map, the persisted embedding file and the
document index unchanged whenever the content is empty/whitespace-only or
the document store is unavailable; the guard runs before any mutation, so
the failure path is atomic and total. -/
theorem add_entry_failure_atomic
    (put : List Memvid.PutDoc → Memvid.PutDoc → Option (List Memvid.PutDoc))
    (encode : Option (Str → List ℚ)) (st : Memvid.MemvidState)
    (date content : Str)
    (h : st.mem = none ∨ stripIsEmpty content = true) :
    Memvid.add_entry put encode st date content = (false, st) := by
  rcases h with h | h
  · simp [Memvid.add_entry, h]
  · unfold Memvid.add_entry
    cases hm : st.mem with
    | none => rfl
    | some m => simp [h]

/-- Witness for C10: a concrete state with an available store and a
whitespace-only content, and a concrete state with no store. -/
theorem add_entry_failure_atomic_witness :
    Memvid.add_entry (fun m d => some (m ++ [d])) none
      ⟨some [], [(str "2024-01-01", str "x")], [], none⟩
      (str "2024-01-02") (str "  ") =
      (false, ⟨some [], [(str "2024-01-01", str "x")], [], none⟩) ∧
    Memvid.add_entry (fun m d => some (m ++ [d])) none ⟨none, [], [], none⟩
      (str "2024-01-02") (str "testo") = (false, ⟨none, [], [], none⟩) := by
  constructor
  · exact add_entry_failure_atomic _ _ _ _ _ (Or.inr (by decide))
  · exact add_entry_failure_atomic _ _ _ _ _ (Or.inl rfl)

/-- C6 (divergence): on 2026-10-12, the query "12 ottobre oggi" resolves the
absolute pattern `12 ottobre` to 2026-10-12 and then the Italian relative
term `oggi` appends the same date again without a membership check, so the
resolver's output contains a duplicate — it is not an ordered set. -/
theorem parse_date_query_duplicate :
    Chat.parse_date_query (str "12 ottobre oggi") ⟨2026, 10, 12⟩ =
      [str "2026-10-12", str "2026-10-12"] ∧
    ¬ (Chat.parse_date_query (str "12 ottobre oggi") ⟨2026, 10, 12⟩).Nodup := by
  constructor
  · decide
  · decide

/-- C7 (divergence): the query "31 febbraio" yields the string
`2026-02-31`, which is not a valid calendar date: the resolver formats the
captured day and month directly (`f"{year}-{month:02d}-{day:02d}"`) without
any calendar validation — the `except ValueError` in the source is dead
code, since `int(day)` cannot raise on a captured digit string. -/
theorem parse_date_query_invalid_date :
    Chat.parse_date_query (str "31 febbraio") ⟨2026, 10, 12⟩ =
      [str "2026-02-31"] ∧
    specValidDateStr (str "2026-02-31") = false := by
  constructor
  · decide
  · decide

/-- C5 (divergence): with an API key and an empty, current-version cache,
the four-character text "ciao" is a cache miss, yet the external analysis is
not invoked and nothing is stored — `analyze_full_entry` returns the empty
analysis for texts whose stripped length is below 50 before ever reaching
the compute/store path. -/
theorem analyze_short_text_not_stored :
    Analyzer.analyze_full_entry (fun s => s) (0 : Nat) (fun _ => some 1) true []
        (str "ciao") = ⟨0, [], none, false⟩ ∧
    lookupAssoc ([] : List (Str × Nat)) (str "ciao") = none := by
  constructor <;> decide

/-- C5 (amended): a persisted cache under a different schema version is
discarded whole by `load_cache`; a cache entry under the content hash is
returned without invoking the external analysis; on a miss with an API key,
a stripped length of at least 50, and a successful computation, the result
is stored under the content hash and the cache file is rewritten with the
current schema version.  (Texts shorter than 50 stripped characters, or an
analyzer without an API key, return the empty analysis without invoking or
storing anything.) -/
theorem analyze_cache_gate {α : Type} (hash : Str → Str) (emptyA : α)
    (compute : Str → Option α) (text : Str) (cache : List (Str × α)) :
    (∀ (fver : Str) (entries : List (Str × α)), fver ≠ Analyzer.cache_version →
        Analyzer.load_cache (some (fver, entries)) Analyzer.cache_version = []) ∧
    (∀ r, lookupAssoc cache (hash text) = some r →
        Analyzer.analyze_full_entry hash emptyA compute true cache text =
          ⟨r, cache, none, false⟩) ∧
    (∀ res, lookupAssoc cache (hash text) = none →
        50 ≤ (Analyzer.stripWs text).length →
        compute (if 4000 < text.length then text.take 4000 ++ str "..." else text) =
          some res →
        Analyzer.analyze_full_entry hash emptyA compute true cache text =
          ⟨res, updateAssoc cache (hash text) res,
           some (Analyzer.cache_version, updateAssoc cache (hash text) res),
           true⟩) := by
  refine ⟨?_, ?_, ?_⟩
  · intro fver entries h
    unfold Analyzer.load_cache
    simp only []
    rw [if_neg (by simpa using h)]
  · intro r h
    unfold Analyzer.analyze_full_entry
    simp only [Bool.not_true, if_false, h]
    simp
  · intro res h h50 hc
    unfold Analyzer.analyze_full_entry
    simp only [Bool.not_true, if_false, h]
    rw [if_neg (by omega : ¬ (Analyzer.stripWs text).length < 50), hc]
    simp

/-- Witness for C5 (amended), at concrete inputs: a "1.0" cache file is
discarded under the current "2.0" version; a cached hash is returned without
computing; a 60-character text misses, computes and stores. -/
theorem analyze_cache_gate_witness :
    Analyzer.load_cache (some (str "1.0", [(str "h", (5 : Nat))]))
        Analyzer.cache_version = [] ∧
    Analyzer.analyze_full_entry (fun _ => str "h") 0 (fun _ => some (7 : Nat))
        true [(str "h", 5)] (str "ciao") = ⟨5, [(str "h", 5)], none, false⟩ ∧
    Analyzer.analyze_full_entry (fun _ => str "h") 0 (fun _ => some (7 : Nat))
        true [] (List.replicate 60 'a') =
      ⟨7, [(str "h", 7)], some (Analyzer.cache_version, [(str "h", 7)]), true⟩ := by
  refine ⟨?_, ?_, ?_⟩
  · exact (analyze_cache_gate (fun _ => str "h") 0 (fun _ => some 7) (str "x")
      [(str "h", (5 : Nat))]).1 (str "1.0") _ (by decide)
  · exact (analyze_cache_gate (fun _ => str "h") 0 (fun _ => some 7) (str "ciao")
      [(str "h", 5)]).2.1 5 (by decide)
  · exact (analyze_cache_gate (fun _ => str "h") 0 (fun _ => some 7)
      (List.replicate 60 'a') []).2.2 7 (by decide) (by decide) (by decide)

namespace Memvid

theorem lookupHit_updateHit_self (l : List Hit) (r : Hit) :
    lookupHit (updateHit l r) r.date = some r := by
  induction l with
  | nil => simp [updateHit, lookupHit, List.find?_cons]
  | cons h t ih =>
    simp only [updateHit]
    split
    · simp [lookupHit, List.find?_cons]
    · rename_i hne
      simp only [lookupHit, List.find?_cons, hne]
      exact ih

theorem lookupHit_fuseOverwrite_present (acc : List Hit) (r old : Hit)
    (h : lookupHit acc r.date = some old) :
    lookupHit (fuseOverwrite acc r) r.date =
      some (if old.score < r.score then r else old) := by
  by_cases hlt : old.score < r.score
  · rw [show fuseOverwrite acc r = updateHit acc r from by
        unfold fuseOverwrite; rw [h]; exact if_pos hlt]
    rw [if_pos hlt]
    exact lookupHit_updateHit_self acc r
  · rw [show fuseOverwrite acc r = acc from by
        unfold fuseOverwrite; rw [h]; exact if_neg hlt]
    rw [if_neg hlt]
    exact h

theorem lookupHit_fuseOverwrite_absent (acc : List Hit) (r : Hit)
    (h : lookupHit acc r.date = none) :
    lookupHit (fuseOverwrite acc r) r.date = some r := by
  rw [show fuseOverwrite acc r = acc ++ [r] from by unfold fuseOverwrite; rw [h]]
  unfold lookupHit at h ⊢
  rw [List.find?_append, h]
  simp [List.find?_cons]

theorem lookupHit_fuseAddOnly_preserved (acc : List Hit) (x : Hit) (d : Str)
    (old : Hit) (h : lookupHit acc d = some old) :
    lookupHit (fuseAddOnly acc x) d = some old := by
  cases hx : lookupHit acc x.date with
  | some w =>
    rw [show fuseAddOnly acc x = acc from by unfold fuseAddOnly; rw [hx]]
    exact h
  | none =>
    rw [show fuseAddOnly acc x = acc ++ [x] from by unfold fuseAddOnly; rw [hx]]
    unfold lookupHit at h ⊢
    rw [List.find?_append, h]
    rfl

end Memvid

/-- C1 (divergence): a BM25 hit for date 2024-06-15 with score 50, strictly
higher than the 10 already recorded by the semantic strategy (0.5 × 20),
does not replace that date's result: the BM25 phase only adds dates that are
absent. -/
theorem fusion_bm25_no_overwrite :
    Memvid.get_similar_entries
        [⟨str "2024-06-15", str "semantic snippet", mkRat 1 2,
          str "Diario 2024-06-15"⟩]
        [] (str "xyz")
        (some [⟨str "Diario 2024-06-15", str "bm25 snippet", 50⟩]) 5 =
      [⟨str "2024-06-15", str "semantic snippet", 10, str "Diario 2024-06-15"⟩] ∧
    (10 : ℚ) < 50 := by
  constructor <;> decide

/-- C1 (amended): in `get_similar_entries`, the semantic and direct phases
overwrite a date already present exactly when the new score is strictly
higher (and insert absent dates); the BM25 phase never changes a date that
is already present; the final output is sorted by score descending and has
at most `top_n` elements. -/
theorem fusion_merge_amended :
    (∀ (acc : List Memvid.Hit) (r old : Memvid.Hit),
        Memvid.lookupHit acc r.date = some old →
        Memvid.lookupHit (Memvid.fuseOverwrite acc r) r.date =
          some (if old.score < r.score then r else old)) ∧
    (∀ (acc : List Memvid.Hit) (r : Memvid.Hit),
        Memvid.lookupHit acc r.date = none →
        Memvid.lookupHit (Memvid.fuseOverwrite acc r) r.date = some r) ∧
    (∀ (acc : List Memvid.Hit) (x : Memvid.Hit) (d : Str) (old : Memvid.Hit),
        Memvid.lookupHit acc d = some old →
        Memvid.lookupHit (Memvid.fuseAddOnly acc x) d = some old) ∧
    (∀ sem entries q bm n,
        (Memvid.get_similar_entries sem entries q bm n).Pairwise
          (fun a b => b.score ≤ a.score) ∧
        (Memvid.get_similar_entries sem entries q bm n).length ≤ n) := by
  refine ⟨Memvid.lookupHit_fuseOverwrite_present,
          Memvid.lookupHit_fuseOverwrite_absent,
          Memvid.lookupHit_fuseAddOnly_preserved, ?_⟩
  intro sem entries q bm n
  unfold Memvid.get_similar_entries
  exact ⟨List.Pairwise.sublist (List.take_sublist _ _) (pairwise_sortByDesc _ _),
         List.length_take_le _ _⟩

/-- Witness for C1 (amended) at concrete inputs: a higher-scoring direct hit
replaces, the BM25 add-only step preserves, and a concrete fused output is
sorted and bounded. -/
theorem fusion_merge_amended_witness :
    Memvid.lookupHit
        (Memvid.fuseOverwrite [⟨str "2024-06-15", str "a", 3, str "t"⟩]
          ⟨str "2024-06-15", str "b", 7, str "u"⟩) (str "2024-06-15") =
      some (if (3 : ℚ) < 7 then ⟨str "2024-06-15", str "b", 7, str "u"⟩
            else ⟨str "2024-06-15", str "a", 3, str "t"⟩) ∧
    Memvid.lookupHit
        (Memvid.fuseAddOnly [⟨str "2024-06-15", str "a", 3, str "t"⟩]
          ⟨str "2024-06-15", str "c", 9, str "v"⟩) (str "2024-06-15") =
      some ⟨str "2024-06-15", str "a", 3, str "t"⟩ ∧
    ((Memvid.get_similar_entries [] [(str "2024-06-15", str "pizza al mare")]
        (str "pizza") none 1).Pairwise (fun a b => b.score ≤ a.score) ∧
      (Memvid.get_similar_entries [] [(str "2024-06-15", str "pizza al mare")]
        (str "pizza") none 1).length ≤ 1) := by
  refine ⟨?_, ?_, ?_⟩
  · exact fusion_merge_amended.1 [⟨str "2024-06-15", str "a", 3, str "t"⟩]
      ⟨str "2024-06-15", str "b", 7, str "u"⟩
      ⟨str "2024-06-15", str "a", 3, str "t"⟩ (by decide)
  · exact fusion_merge_amended.2.2.1 [⟨str "2024-06-15", str "a", 3, str "t"⟩]
      ⟨str "2024-06-15", str "c", 9, str "v"⟩ (str "2024-06-15")
      ⟨str "2024-06-15", str "a", 3, str "t"⟩ (by decide)
  · exact fusion_merge_amended.2.2.2 [] [(str "2024-06-15", str "pizza al mare")]
      (str "pizza") none 1

namespace Json

theorem jsonEscape_length (s : Str) : s.length ≤ (jsonEscape s).length := by
  induction s with
  | nil => simp [jsonEscape]
  | cons c t ih =>
    simp only [jsonEscape]
    split <;> simp <;> omega

theorem unescChar_of_escaped (c : Char) (h : c = '"' ∨ c = '\\') :
    unescChar c = some c := by
  rcases h with rfl | rfl <;> rfl

theorem parseStrBodyF_escape (s : Str) : ∀ (fuel : Nat) (rest : Str),
    s.length < fuel →
    parseStrBodyF fuel (jsonEscape s ++ '"' :: rest) = some (s, rest) := by
  induction s with
  | nil =>
    intro fuel rest hf
    match fuel, hf with
    | f + 1, _ => rfl
  | cons c t ih =>
    intro fuel rest hf
    match fuel, hf with
    | f + 1, hf =>
      by_cases hc : c = '"' ∨ c = '\\'
      · have he : jsonEscape (c :: t) = '\\' :: c :: jsonEscape t := by
          simp [jsonEscape, hc]
        rw [he]
        show parseStrBodyF (f + 1) ('\\' :: (c :: (jsonEscape t ++ '"' :: rest)))
          = some (c :: t, rest)
        simp only [parseStrBodyF]
        rw [if_neg (by decide)]
        simp only [if_true]
        rw [unescChar_of_escaped c hc]
        rw [ih f rest (by simpa using hf)]
        rfl
      · push_neg at hc
        have he : jsonEscape (c :: t) = c :: jsonEscape t := by
          simp only [jsonEscape]
          rw [if_neg (by tauto)]
          rfl
        rw [he]
        show parseStrBodyF (f + 1) (c :: (jsonEscape t ++ '"' :: rest))
          = some (c :: t, rest)
        simp only [parseStrBodyF]
        rw [if_neg hc.1, if_neg hc.2]
        rw [ih f rest (by simpa using hf)]
        rfl

theorem parseStrBody_escape (s rest : Str) :
    parseStrBody (jsonEscape s ++ '"' :: rest) = some (s, rest) := by
  unfold parseStrBody
  apply parseStrBodyF_escape
  have := jsonEscape_length s
  simp
  omega

/-- Well-formedness of a numeric literal as produced by `json.dumps` for a
float: nonempty, made of number characters, starting with a digit or a
minus sign. -/
def numLitOk (l : Str) : Bool :=
  (¬ l.isEmpty) && l.all isNumChar && isNumStart (l.headD '0')

theorem takeWhile_append_all {p : Char → Bool} (l rest : Str)
    (h : l.all p = true) (h2 : ∀ c ∈ rest.head?, p c = false) :
    (l ++ rest).takeWhile p = l ∧ (l ++ rest).dropWhile p = rest := by
  induction l with
  | nil =>
    cases rest with
    | nil => simp
    | cons c r =>
      have := h2 c (by simp)
      simp [List.takeWhile, List.dropWhile, this]
  | cons c t ih =>
    simp only [List.all_cons, Bool.and_eq_true] at h
    have := ih h.2
    simp [List.takeWhile, List.dropWhile, h.1, this.1, this.2]

theorem parseNumLit_spec (lit rest : Str) (h : numLitOk lit = true)
    (h2 : ∀ c ∈ rest.head?, isNumChar c = false) :
    parseNumLit (lit ++ rest) = some (lit, rest) := by
  simp only [numLitOk, Bool.and_eq_true] at h
  have hall : lit.all isNumChar = true := h.1.2
  have := takeWhile_append_all lit rest hall h2
  unfold parseNumLit
  rw [this.1, this.2]
  have hne : lit.isEmpty = false := by
    rcases h with ⟨⟨hne, _⟩, _⟩
    simpa using hne
  simp [hne]

theorem not_ws_of_numStart (c : Char) (h : isNumStart c = true) :
    isJsonWs c = false := by
  by_contra hw
  simp only [Bool.not_eq_false] at hw
  simp only [isJsonWs, Bool.or_eq_true, decide_eq_true_eq] at hw
  rcases hw with ((rfl | rfl) | rfl) | rfl <;> exact absurd h (by decide)

theorem numStart_ne_quote (c : Char) (h : isNumStart c = true) : c ≠ '"' := by
  rintro rfl
  exact absurd h (by decide)

theorem numStart_ne_brace (c : Char) (h : isNumStart c = true) : c ≠ '{' := by
  rintro rfl
  exact absurd h (by decide)

/-- Number of members of a JSON object. -/
def msSize : JMembers → Nat
  | .mnil => 0
  | .mcons _ _ r => msSize r + 1

/-- Well-formedness of an emotions object as serialized by `save_emotions`:
every value is a numeric literal in `json.dumps` float format. -/
def emoWFb : JMembers → Bool
  | .mnil => true
  | .mcons _ v rest =>
    (match v with
     | JVal.jnum l => numLitOk l
     | _ => false) && emoWFb rest

theorem skipWs_cons_of_not_ws (c : Char) (t : Str) (h : isJsonWs c = false) :
    skipWs (c :: t) = c :: t := by
  simp [skipWs, List.dropWhile, h]

theorem skipWs_cons_ws (c : Char) (t : Str) (h : isJsonWs c = true) :
    skipWs (c :: t) = skipWs t := by
  simp [skipWs, List.dropWhile, h]

theorem parseMembers_space (f : Nat) (x : Str) :
    parseMembers (f + 1) (' ' :: x) = parseMembers (f + 1) x := by
  show (match skipWs (' ' :: x) with
        | '"' :: t => _
        | _ => none) = _
  rw [skipWs_cons_ws ' ' x (by decide)]
  rfl

theorem skipWs_quote (t : Str) : skipWs ('"' :: t) = '"' :: t := by
  simp [skipWs, List.dropWhile, isJsonWs]

theorem skipWs_colon (t : Str) : skipWs (':' :: t) = ':' :: t := by
  simp [skipWs, List.dropWhile, isJsonWs]

theorem skipWs_comma (t : Str) : skipWs (',' :: t) = ',' :: t := by
  simp [skipWs, List.dropWhile, isJsonWs]

theorem skipWs_rbrace (t : Str) : skipWs ('}' :: t) = '}' :: t := by
  simp [skipWs, List.dropWhile, isJsonWs]

theorem skipWs_lbrace (t : Str) : skipWs ('{' :: t) = '{' :: t := by
  simp [skipWs, List.dropWhile, isJsonWs]

theorem skipWs_space (t : Str) : skipWs (' ' :: t) = skipWs t := by
  simp [skipWs, List.dropWhile, isJsonWs]

theorem skipWs_nil : skipWs [] = [] := rfl

theorem parseMembersAux (n : Nat) : ∀ (ms : JMembers), msSize ms ≤ n →
    emoWFb ms = true → ms ≠ .mnil → ∀ (fuel : Nat) (rest : Str),
    msSize ms < fuel →
    parseMembers fuel (dumpsMembers ms ++ '}' :: rest) = some (ms, rest) := by
  induction n with
  | zero =>
    intro ms hsz h hne fuel rest hf
    cases ms with
    | mnil => exact absurd rfl hne
    | mcons k v tail => simp [msSize] at hsz
  | succ n ihn =>
    intro ms hsz h hne fuel rest hf
    cases ms with
    | mnil => exact absurd rfl hne
    | mcons k v tail =>
      simp only [emoWFb, Bool.and_eq_true] at h
      obtain ⟨hv, htail⟩ := h
      obtain ⟨lit, rfl, hlit⟩ : ∃ l, v = JVal.jnum l ∧ numLitOk l = true := by
        cases v with
        | jnum l => exact ⟨l, rfl, hv⟩
        | jstr s => exact absurd hv (by simp)
        | jobj m => exact absurd hv (by simp)
      have hlit' := hlit
      simp only [numLitOk, Bool.and_eq_true] at hlit'
      obtain ⟨⟨hlne, _⟩, hlstart⟩ := hlit'
      obtain ⟨lc, lt, rfl⟩ : ∃ lc lt, lit = lc :: lt := by
        cases lit with
        | nil => exact absurd hlne (by simp)
        | cons a b => exact ⟨a, b, rfl⟩
      have hstart : isNumStart lc = true := by simpa using hlstart
      have hq : (lc = '"') = False := by
        simpa using numStart_ne_quote lc hstart
      have hbr : (lc = '{') = False := by
        simpa using numStart_ne_brace lc hstart
      match fuel, hf with
      | f + 1, hf =>
        cases tail with
        | mnil =>
          have hval : parseVal f (' ' :: (lc :: (lt ++ '}' :: rest))) =
              some (JVal.jnum (lc :: lt), '}' :: rest) := by
            have hf1 : 0 < f := by simpa [msSize] using hf
            match f, hf1 with
            | f1 + 1, _ =>
              have hlcws := skipWs_cons_of_not_ws lc (lt ++ '}' :: rest)
                (not_ws_of_numStart lc hstart)
              have hnum : parseNumLit (lc :: (lt ++ '}' :: rest)) =
                  some (lc :: lt, '}' :: rest) := by
                rw [show lc :: (lt ++ '}' :: rest) =
                    (lc :: lt) ++ '}' :: rest from rfl]
                exact parseNumLit_spec _ _ hlit
                  (by intro c hc; simp at hc; subst hc; decide)
              simp only [parseVal, skipWs_space, hlcws, hq, hbr, hstart,
                if_false, if_true, hnum, Option.map_some']
          simp only [dumpsMembers, dumpsVal, List.append_assoc,
            List.cons_append, List.nil_append]
          simp only [parseMembers, skipWs_quote, parseStrBody_escape,
            skipWs_colon, hval, skipWs_rbrace]
        | mcons k2 v2 tail2 =>
          have hval : parseVal f (' ' :: (lc :: (lt ++ ',' ::
              (' ' :: (dumpsMembers (.mcons k2 v2 tail2) ++ '}' :: rest))))) =
              some (JVal.jnum (lc :: lt), ',' ::
                (' ' :: (dumpsMembers (.mcons k2 v2 tail2) ++ '}' :: rest))) := by
            have hf1 : 0 < f := by simp [msSize] at hf; omega
            match f, hf1 with
            | f1 + 1, _ =>
              have hlcws := skipWs_cons_of_not_ws lc (lt ++ ',' ::
                (' ' :: (dumpsMembers (.mcons k2 v2 tail2) ++ '}' :: rest)))
                (not_ws_of_numStart lc hstart)
              have hnum : parseNumLit (lc :: (lt ++ ',' ::
                  (' ' :: (dumpsMembers (.mcons k2 v2 tail2) ++ '}' :: rest)))) =
                  some (lc :: lt, ',' ::
                    (' ' :: (dumpsMembers (.mcons k2 v2 tail2) ++ '}' :: rest))) := by
                rw [show lc :: (lt ++ ',' ::
                    (' ' :: (dumpsMembers (.mcons k2 v2 tail2) ++ '}' :: rest))) =
                    (lc :: lt) ++ ',' ::
                    (' ' :: (dumpsMembers (.mcons k2 v2 tail2) ++ '}' :: rest))
                    from rfl]
                exact parseNumLit_spec _ _ hlit
                  (by intro c hc; simp at hc; subst hc; decide)
              simp only [parseVal, skipWs_space, hlcws, hq, hbr, hstart,
                if_false, if_true, hnum, Option.map_some']
          have hrec : parseMembers f (' ' ::
              (dumpsMembers (.mcons k2 v2 tail2) ++ '}' :: rest)) =
              some (JMembers.mcons k2 v2 tail2, rest) := by
            have hf2 : msSize (JMembers.mcons k2 v2 tail2) < f := by
              simp [msSize] at hf ⊢; omega
            match f, hf2 with
            | f2 + 1, hf2 =>
              rw [parseMembers_space f2 _]
              have hsz2 : msSize (JMembers.mcons k2 v2 tail2) ≤ n := by
                simp [msSize] at hsz ⊢; omega
              exact ihn _ hsz2 htail (by simp) (f2 + 1) rest hf2
          simp only [dumpsMembers, dumpsVal, List.append_assoc,
            List.cons_append, List.nil_append]
          simp only [parseMembers, skipWs_quote, parseStrBody_escape,
            skipWs_colon, hval, skipWs_comma, hrec, Option.map_some']

theorem parseMembers_dumps (ms : JMembers) (h : emoWFb ms = true)
    (hne : ms ≠ .mnil) (fuel : Nat) (rest : Str) (hf : msSize ms < fuel) :
    parseMembers fuel (dumpsMembers ms ++ '}' :: rest) = some (ms, rest) :=
  parseMembersAux (msSize ms) ms le_rfl h hne fuel rest hf

theorem msSize_le_len : ∀ ms : JMembers, msSize ms ≤ (dumpsMembers ms).length
  | .mnil => by simp [msSize, dumpsMembers]
  | .mcons k v .mnil => by
    simp [msSize, dumpsMembers]
  | .mcons k v (.mcons k2 v2 t2) => by
    have := msSize_le_len (.mcons k2 v2 t2)
    simp only [msSize, dumpsMembers] at this ⊢
    simp only [List.length_cons, List.length_append]
    omega

theorem parseVal_dumpsObj (ms : JMembers) (h : emoWFb ms = true) :
    ∀ (fuel : Nat) (rest : Str), msSize ms + 1 < fuel →
    parseVal fuel (dumpsVal (.jobj ms) ++ rest) = some (.jobj ms, rest) := by
  intro fuel rest hf
  have e1 : ('{' = '"') = False := eq_false (by decide)
  have e2 : ('{' = '{') = True := eq_true rfl
  match fuel, hf with
  | f + 1, hf =>
    cases ms with
    | mnil =>
      simp only [dumpsVal, dumpsMembers, List.nil_append, List.cons_append]
      simp only [parseVal, skipWs_lbrace, skipWs_rbrace, e1, e2, if_false,
        if_true]
    | mcons k v tail =>
      have hrec : parseMembers f
          (dumpsMembers (JMembers.mcons k v tail) ++ '}' :: rest) =
          some (JMembers.mcons k v tail, rest) :=
        parseMembers_dumps _ h (by simp) f rest
          (by simp [msSize] at hf ⊢; omega)
      obtain ⟨b, hb⟩ : ∃ b, dumpsMembers (JMembers.mcons k v tail) = '"' :: b := by
        cases tail <;> exact ⟨_, rfl⟩
      simp only [dumpsVal, List.append_assoc, List.cons_append,
        List.nil_append]
      rw [hb] at hrec ⊢
      simp only [List.cons_append] at hrec ⊢
      simp only [parseVal, skipWs_lbrace, e1, e2, if_false, if_true,
        skipWs_quote]
      show Option.map (fun (p : JMembers × Str) => (JVal.jobj p.1, p.2))
          (parseMembers f ('"' :: (b ++ '}' :: rest))) = _
      rw [hrec]
      rfl

theorem loads_dumpsObj (ms : JMembers) (h : emoWFb ms = true) :
    loads (dumpsVal (.jobj ms)) = some (.jobj ms) := by
  unfold loads
  have hlen : msSize ms + 1 < (dumpsVal (.jobj ms)).length + 1 := by
    have := msSize_le_len ms
    simp only [dumpsVal, List.length_cons, List.length_append]
    omega
  have hp := parseVal_dumpsObj ms h ((dumpsVal (.jobj ms)).length + 1) [] hlen
  rw [List.append_nil] at hp
  rw [hp]
  simp [skipWs_nil]

theorem loads_dumpsStr (s : Str) :
    loads (dumpsVal (.jstr s)) = some (.jstr s) := by
  unfold loads
  have e1 : ('"' = '"') = True := eq_true rfl
  have hp : parseVal ((dumpsVal (.jstr s)).length + 1) (dumpsVal (.jstr s)) =
      some (.jstr s, []) := by
    simp only [dumpsVal]
    simp only [parseVal, skipWs_quote, e1, if_true]
    rw [show jsonEscape s ++ ['"'] = jsonEscape s ++ '"' :: [] from rfl,
        parseStrBody_escape]
    rfl
  rw [hp]
  simp [skipWs_nil]

end Json

namespace Memvid

open Json

theorem decode_emotions_field_obj (ms : JMembers) (h : emoWFb ms = true) :
    decode_emotions_field (dumpsVal (.jobj ms)) = some (.jobj ms) := by
  simp only [decode_emotions_field, loads_dumpsObj ms h]

theorem decode_emotions_field_wrapped (ms : JMembers) (h : emoWFb ms = true) :
    decode_emotions_field (dumpsVal (.jstr (dumpsVal (.jobj ms)))) =
      some (.jobj ms) := by
  simp only [decode_emotions_field, loads_dumpsStr, loads_dumpsObj ms h]

end Memvid

/-- C4: for a stored annotation whose persisted emotions field is the JSON
serialization of an emotion object — possibly wrapped in one extra layer of
string-encoding — `get_emotions` returns exactly that object: strict decode,
decode again when the result is still a string; and when every decode
attempt (including the strip-quotes-and-unescape retry) fails, it returns
`none` rather than raising. -/
theorem get_emotions_decode_resilience (m : Memvid.MemConn) (date uri s : Str)
    (hf : m.find (str "Emozioni " ++ date) 5 = [⟨str "Emozioni " ++ date, uri⟩])
    (hu : uri ≠ [])
    (hfr : m.frame uri = some s) :
    (∀ ms : Json.JMembers, Json.emoWFb ms = true →
        (s = Json.dumpsVal (.jobj ms) ∨
         s = Json.dumpsVal (.jstr (Json.dumpsVal (.jobj ms)))) →
        Memvid.get_emotions (some m) date = some (Json.JVal.jobj ms)) ∧
    (Memvid.decode_emotions_field s = none →
        Memvid.get_emotions (some m) date = none) := by
  have hbase : Memvid.get_emotions (some m) date =
      if s ≠ [] then Memvid.decode_emotions_field s else none := by
    show Memvid.getEmotionsLoop m date (m.find (str "Emozioni " ++ date) 5) = _
    rw [hf]
    simp only [Memvid.getEmotionsLoop, beq_self_eq_true, if_true, hfr]
    rw [if_pos hu]
  constructor
  · intro ms hwf hs
    have hne : s ≠ [] := by
      rcases hs with rfl | rfl <;> simp [Json.dumpsVal]
    rw [hbase, if_pos hne]
    rcases hs with rfl | rfl
    · exact Memvid.decode_emotions_field_obj ms hwf
    · exact Memvid.decode_emotions_field_wrapped ms hwf
  · intro hd
    rw [hbase]
    split
    · exact hd
    · rfl

/-- Witness for C4: a concrete connection whose frame holds the direct
serialization of an emotion map decodes to that map; one whose frame holds
the double-encoded serialization decodes to the same map; one whose frame
holds garbage yields `none`. -/
theorem get_emotions_decode_resilience_witness :
    Memvid.get_emotions
        (some ⟨fun _ _ => [⟨str "Emozioni 2024-06-15", str "u1"⟩],
               fun _ => some (Json.dumpsVal (.jobj (.mcons (str "felice")
                 (.jnum (str "0.8")) .mnil)))⟩) (str "2024-06-15") =
      some (Json.JVal.jobj (.mcons (str "felice") (.jnum (str "0.8")) .mnil)) ∧
    Memvid.get_emotions
        (some ⟨fun _ _ => [⟨str "Emozioni 2024-06-15", str "u1"⟩],
               fun _ => some (Json.dumpsVal (.jstr (Json.dumpsVal
                 (.jobj (.mcons (str "felice") (.jnum (str "0.8")) .mnil)))))⟩)
        (str "2024-06-15") =
      some (Json.JVal.jobj (.mcons (str "felice") (.jnum (str "0.8")) .mnil)) ∧
    Memvid.get_emotions
        (some ⟨fun _ _ => [⟨str "Emozioni 2024-06-15", str "u1"⟩],
               fun _ => some (str "garbage!!")⟩) (str "2024-06-15") = none := by
  refine ⟨?_, ?_, ?_⟩
  · exact (get_emotions_decode_resilience _ (str "2024-06-15") (str "u1") _
      (by decide) (by decide) rfl).1 _ (by decide) (Or.inl rfl)
  · exact (get_emotions_decode_resilience _ (str "2024-06-15") (str "u1") _
      (by decide) (by decide) rfl).1 _ (by decide) (Or.inr rfl)
  · exact (get_emotions_decode_resilience _ (str "2024-06-15") (str "u1") _
      (by decide) (by decide) rfl).2 (by decide)

theorem mem_updateAssoc {γ : Type} (l : List (Str × γ)) (k : Str) (v : γ)
    (p : Str × γ) (h : p ∈ updateAssoc l k v) : p ∈ l ∨ p = (k, v) := by
  induction l with
  | nil => simpa [updateAssoc] using h
  | cons q t ih =>
    simp only [updateAssoc] at h
    split at h
    · rcases List.mem_cons.1 h with rfl | hm
      · exact Or.inr rfl
      · exact Or.inl (List.mem_cons.2 (Or.inr hm))
    · rcases List.mem_cons.1 h with rfl | hm
      · exact Or.inl (List.mem_cons.2 (Or.inl rfl))
      · rcases ih hm with hl | he
        · exact Or.inl (List.mem_cons.2 (Or.inr hl))
        · exact Or.inr he

namespace ESS

open PyStr

theorem mem_entityMatchesAux (idx : List (Str × List (Str × Nat))) :
    ∀ (ws : List Str) (acc : List (Str × Nat × Str)) (q : Str × Nat × Str),
    q ∈ ws.foldl (fun acc w =>
      let cw := stripPunct w
      if 3 ≤ cw.length then
        match lookupAssoc idx cw with
        | some dm => acc ++ dm.map (fun p => (p.1, p.2, cw))
        | none => acc
      else acc) acc →
    q ∈ acc ∨ ∃ w ∈ ws, 3 ≤ (stripPunct w).length ∧ ∃ dm,
      lookupAssoc idx (stripPunct w) = some dm ∧ (q.1, q.2.1) ∈ dm ∧
      q.2.2 = stripPunct w := by
  intro ws
  induction ws with
  | nil => intro acc q h; exact Or.inl h
  | cons w ws ih =>
    intro acc q h
    simp only [List.foldl_cons] at h
    rcases ih _ q h with hacc | ⟨w', hw', hrest⟩
    · -- q came from the accumulator after processing w
      by_cases h3 : 3 ≤ (stripPunct w).length
      · simp only [h3, if_true] at hacc
        cases hdm : lookupAssoc idx (stripPunct w) with
        | none => rw [hdm] at hacc; exact Or.inl hacc
        | some dm =>
          rw [hdm] at hacc
          rcases List.mem_append.1 hacc with hl | hr
          · exact Or.inl hl
          · right
            refine ⟨w, List.mem_cons.2 (Or.inl rfl), h3, dm, hdm, ?_, ?_⟩
            · rcases List.mem_map.1 hr with ⟨p, hp, he⟩
              have h1 : q.1 = p.1 := by rw [← he]
              have h2 : q.2.1 = p.2 := by rw [← he]
              rw [h1, h2]
              exact hp
            · rcases List.mem_map.1 hr with ⟨p, hp, he⟩
              rw [← he]
      · simp only [h3, if_false] at hacc
        exact Or.inl hacc
    · exact Or.inr ⟨w', List.mem_cons.2 (Or.inr hw'), hrest⟩

theorem mem_entityMatches (idx : List (Str × List (Str × Nat))) (text : Str)
    (q : Str × Nat × Str) (h : q ∈ entityMatches idx text) :
    ∃ w ∈ splitWs (pyLower text), 3 ≤ (stripPunct w).length ∧ ∃ dm,
      lookupAssoc idx (stripPunct w) = some dm ∧ (q.1, q.2.1) ∈ dm ∧
      q.2.2 = stripPunct w := by
  have := mem_entityMatchesAux idx (splitWs (pyLower text)) [] q h
  simpa using this

theorem mem_groupDateScoresAux :
    ∀ (ms : List (Str × Nat × Str)) (acc : List (Str × ℚ)) (p : Str × ℚ),
    p ∈ ms.foldl (fun acc m =>
      match lookupAssoc acc m.1 with
      | some s => updateAssoc acc m.1 (qAdd s (m.2.1 : ℚ))
      | none => acc ++ [(m.1, (m.2.1 : ℚ))]) acc →
    p.1 ∈ acc.map Prod.fst ∨ p.1 ∈ ms.map Prod.fst := by
  intro ms
  induction ms with
  | nil =>
    intro acc p h
    exact Or.inl (List.mem_map.2 ⟨p, h, rfl⟩)
  | cons m ms ih =>
    intro acc p h
    simp only [List.foldl_cons] at h
    rcases ih _ p h with hacc | hrest
    · cases hdm : lookupAssoc acc m.1 with
      | some s =>
        rw [hdm] at hacc
        rcases List.mem_map.1 hacc with ⟨q, hq, he⟩
        rcases mem_updateAssoc acc m.1 (qAdd s (m.2.1 : ℚ)) q hq with hl | hr
        · exact Or.inl (List.mem_map.2 ⟨q, hl, he⟩)
        · right
          rw [← he, hr]
          exact List.mem_cons.2 (Or.inl rfl)
      | none =>
        rw [hdm] at hacc
        rcases List.mem_map.1 hacc with ⟨q, hq, he⟩
        rcases List.mem_append.1 hq with hl | hr
        · exact Or.inl (List.mem_map.2 ⟨q, hl, he⟩)
        · right
          have : q = (m.1, (m.2.1 : ℚ)) := by simpa using hr
          rw [← he, this]
          exact List.mem_cons.2 (Or.inl rfl)
    · exact Or.inr (List.mem_cons.2 (Or.inr (by simpa using hrest)))

theorem mem_groupDateScores (ms : List (Str × Nat × Str)) (p : Str × ℚ)
    (h : p ∈ groupDateScores ms) : p.1 ∈ ms.map Prod.fst := by
  have := mem_groupDateScoresAux ms [] p h
  simpa using this

end ESS

/-- C2: when the entity index yields at least one hit for the query, the
result of `EnhancedStructuredMemory.get_similar_entries` is exactly the
entity ranking — dates grouped from the entity matches with their mention
counts summed, sorted by that score descending, truncated to `top_n`; it is
independent of the stored entries and of the TF-IDF/spaCy fallback (the
keyword and semantic paths are not reached); and every returned date is a
date of an entity-index posting for some query token. -/
theorem ess_entity_priority (idx : List (Str × List (Str × Nat)))
    (entries1 entries2 : List (Str × Str)) (fb1 fb2 : List (Str × ℚ))
    (text : Str) (top_n : Nat) (h : ESS.entityMatches idx text ≠ []) :
    ESS.ess_get_similar_entries idx entries1 fb1 text top_n =
      (sortByDesc Prod.snd
        (ESS.groupDateScores (ESS.entityMatches idx text))).take top_n ∧
    ESS.ess_get_similar_entries idx entries1 fb1 text top_n =
      ESS.ess_get_similar_entries idx entries2 fb2 text top_n ∧
    (∀ p ∈ ESS.ess_get_similar_entries idx entries1 fb1 text top_n,
      ∃ w ∈ PyStr.splitWs (PyStr.pyLower text), ∃ dm,
        lookupAssoc idx (ESS.stripPunct w) = some dm ∧
        p.1 ∈ dm.map Prod.fst) := by
  have he : ∀ (es : List (Str × Str)) (fb : List (Str × ℚ)),
      ESS.ess_get_similar_entries idx es fb text top_n =
        (sortByDesc Prod.snd
          (ESS.groupDateScores (ESS.entityMatches idx text))).take top_n := by
    intro es fb
    unfold ESS.ess_get_similar_entries
    rw [if_pos h]
  refine ⟨he entries1 fb1, (he entries1 fb1).trans (he entries2 fb2).symm, ?_⟩
  intro p hp
  rw [he entries1 fb1] at hp
  have hp2 := (mem_sortByDesc Prod.snd _ p).1 (List.mem_of_mem_take hp)
  have hp3 := ESS.mem_groupDateScores _ p hp2
  rcases List.mem_map.1 hp3 with ⟨q, hq, he2⟩
  rcases ESS.mem_entityMatches idx text q hq with ⟨w, hw, _, dm, hdm, hmem, _⟩
  exact ⟨w, hw, dm, hdm, by rw [← he2]; exact List.mem_map.2 ⟨_, hmem, rfl⟩⟩

/-- Witness for C2: the scenario of the specification — the query
"what happened with maria" hits the entity `maria` indexed for 2024-06-15,
and the result is that date alone, regardless of other entries containing
the word "lake". -/
theorem ess_entity_priority_witness :
    ESS.ess_get_similar_entries [(str "maria", [(str "2024-06-15", 1)])]
        [(str "2024-01-01", str "a day at the lake")]
        [(str "2024-02-02", 1)] (str "what happened with maria") 3 =
      (sortByDesc Prod.snd (ESS.groupDateScores (ESS.entityMatches
        [(str "maria", [(str "2024-06-15", 1)])]
        (str "what happened with maria")))).take 3 ∧
    ESS.ess_get_similar_entries [(str "maria", [(str "2024-06-15", 1)])]
        [(str "2024-01-01", str "a day at the lake")]
        [(str "2024-02-02", 1)] (str "what happened with maria") 3 =
      ESS.ess_get_similar_entries [(str "maria", [(str "2024-06-15", 1)])]
        [] [] (str "what happened with maria") 3 := by
  have h := ess_entity_priority [(str "maria", [(str "2024-06-15", 1)])]
    [(str "2024-01-01", str "a day at the lake")] [] [(str "2024-02-02", 1)]
    [] (str "what happened with maria") 3 (by decide)
  exact ⟨h.1, h.2.1⟩

namespace PyStr

/-- Each element preceded by the separator — the shape of the tail of a
`joinSep`. -/
def tailGlue (sep : Str) : List Str → Str
  | [] => []
  | a :: t => sep ++ a ++ tailGlue sep t

theorem joinSep_cons (sep : Str) : ∀ (B : List Str) (x : Str),
    joinSep sep (x :: B) = x ++ tailGlue sep B := by
  intro B
  induction B with
  | nil => intro x; simp [joinSep, tailGlue]
  | cons b B ih =>
    intro x
    show x ++ sep ++ joinSep sep (b :: B) = _
    rw [ih b]
    simp [tailGlue, List.append_assoc]

theorem joinSep_append_cons (sep : Str) : ∀ (A : List Str) (x : Str)
    (B : List Str), ∃ pre,
    joinSep sep (A ++ x :: B) = pre ++ (x ++ tailGlue sep B) := by
  intro A
  induction A with
  | nil =>
    intro x B
    exact ⟨[], by simp [joinSep_cons]⟩
  | cons a A ih =>
    intro x B
    rcases ih x B with ⟨pre, hp⟩
    rcases hq : A ++ x :: B with _ | ⟨y, t⟩
    · exact absurd hq (by simp)
    · refine ⟨a ++ sep ++ pre, ?_⟩
      show joinSep sep (a :: (A ++ x :: B)) = _
      rw [hq]
      show a ++ sep ++ joinSep sep (y :: t) = _
      rw [← hq, hp]
      simp [List.append_assoc]

theorem tailGlue_append_single (sep : Str) : ∀ (B : List Str) (z : Str),
    tailGlue sep (B ++ [z]) = tailGlue sep B ++ (sep ++ z) := by
  intro B
  induction B with
  | nil => intro z; simp [tailGlue]
  | cons b B ih =>
    intro z
    show sep ++ b ++ tailGlue sep (B ++ [z]) = _
    rw [ih z]
    simp [tailGlue, List.append_assoc]

end PyStr

/-- C3: whenever the query contains an explicit date that the temporal
resolver yields and an entry exists for it, the assembled context contains
that entry's full text labeled by its date, and — when the similarity
context is nonempty — the distinctly labeled similarity block follows it at
the very end; when no explicit-date block is produced, the similarity
context is returned raw and unlabeled (possibly empty), never as an
error. -/
theorem get_intelligent_context_spec (entries : List (Str × Str))
    (query : Str) (now : Chat.PDate) (simCtx relatedLabel : Str) :
    (∀ d e, d ∈ Chat.parse_date_query query now →
        lookupAssoc entries d = some e →
        ∃ pre mid,
          Chat.get_intelligent_context entries query now simCtx relatedLabel =
            pre ++ Chat.dateBlock d e ++ mid ∧
          (simCtx ≠ [] → ∃ mid0,
            mid = mid0 ++ Chat.simBlock relatedLabel simCtx)) ∧
    ((∀ d ∈ Chat.parse_date_query query now, lookupAssoc entries d = none) →
      Chat.get_intelligent_context entries query now simCtx relatedLabel =
        simCtx) := by
  constructor
  · intro d e hd hl
    have hmem : Chat.dateBlock d e ∈
        (Chat.parse_date_query query now).filterMap
          (fun d => (lookupAssoc entries d).map (fun e => Chat.dateBlock d e)) :=
      List.mem_filterMap.2 ⟨d, hd, by rw [hl]; rfl⟩
    rcases List.append_of_mem hmem with ⟨A, B, hAB⟩
    simp only [Chat.get_intelligent_context]
    rw [hAB]
    by_cases hs : simCtx ≠ []
    · rw [if_pos hs, if_pos (by simp)]
      rw [show (A ++ Chat.dateBlock d e :: B) ++ [Chat.simBlock relatedLabel simCtx]
          = A ++ Chat.dateBlock d e :: (B ++ [Chat.simBlock relatedLabel simCtx])
          from by simp]
      rw [if_pos (by simp)]
      rcases PyStr.joinSep_append_cons ['\n'] A (Chat.dateBlock d e)
        (B ++ [Chat.simBlock relatedLabel simCtx]) with ⟨pre, hp⟩
      rw [hp, PyStr.tailGlue_append_single]
      refine ⟨pre,
        PyStr.tailGlue ['\n'] B ++ (['\n'] ++ Chat.simBlock relatedLabel simCtx),
        by simp [List.append_assoc],
        fun _ => ⟨PyStr.tailGlue ['\n'] B ++ ['\n'],
          by simp [List.append_assoc]⟩⟩
    · rw [if_neg hs, if_pos (by simp)]
      rcases PyStr.joinSep_append_cons ['\n'] A (Chat.dateBlock d e) B
        with ⟨pre, hp⟩
      rw [hp]
      exact ⟨pre, PyStr.tailGlue ['\n'] B, by simp [List.append_assoc],
        fun hc => absurd hc (by simpa using hs)⟩
  · intro hall
    have hnil : (Chat.parse_date_query query now).filterMap
        (fun d => (lookupAssoc entries d).map (fun e => Chat.dateBlock d e)) =
        [] := by
      rw [List.filterMap_eq_nil_iff]
      intro d hd
      rw [hall d hd]
      rfl
    simp only [Chat.get_intelligent_context]
    rw [hnil]
    by_cases hs : simCtx ≠ []
    · rw [if_pos hs]
      rw [if_neg (by simp : ¬ (([] : List Str) ≠ []))]
      rw [if_pos (by simp : (([] : List Str) ++ [simCtx]) ≠ [])]
      simp [PyStr.joinSep]
    · rw [if_neg hs]
      rw [if_neg (by simp : ¬ (([] : List Str) ≠ []))]

/-- Witness for C3: the query "il 15" on 2026-10-12 resolves to 2026-10-15,
whose entry is emitted labeled and followed by the labeled similarity
block; with no matching entries the raw similarity context is returned. -/
theorem get_intelligent_context_spec_witness :
    (∃ pre mid,
      Chat.get_intelligent_context [(str "2026-10-15", str "giornata al lago")]
          (str "il 15") ⟨2026, 10, 12⟩ (str "sim") (str "Voci correlate") =
        pre ++ Chat.dateBlock (str "2026-10-15") (str "giornata al lago") ++ mid ∧
      (str "sim" ≠ [] → ∃ mid0,
        mid = mid0 ++ Chat.simBlock (str "Voci correlate") (str "sim"))) ∧
    Chat.get_intelligent_context [] (str "il 15") ⟨2026, 10, 12⟩ (str "sim")
        (str "Voci correlate") = str "sim" := by
  constructor
  · exact (get_intelligent_context_spec [(str "2026-10-15", str "giornata al lago")]
      (str "il 15") ⟨2026, 10, 12⟩ (str "sim") (str "Voci correlate")).1
      (str "2026-10-15") (str "giornata al lago") (by decide) (by decide)
  · exact (get_intelligent_context_spec [] (str "il 15") ⟨2026, 10, 12⟩
      (str "sim") (str "Voci correlate")).2 (by decide)

namespace Memvid

open PyStr

theorem keywordScan_spec (cl : Str) : ∀ (ks : List Str) (m0 : Bool) (sc0 : ℚ)
    (bi0 : Nat),
    keywordScan cl ks (m0, sc0, bi0) =
      (m0 || ks.any (fun k => hasSub cl k),
       sc0 + ((ks.filter (fun k => hasSub cl k)).map
         (fun k => (countSub k cl : ℚ) * (5 + (k.length : ℚ)))).sum,
       (ks.filter (fun k => hasSub cl k)).foldl
         (fun bi k => max bi ((findSubIdx k cl).getD 0)) bi0) := by
  intro ks
  induction ks with
  | nil => intro m0 sc0 bi0; simp [keywordScan]
  | cons k ks ih =>
    intro m0 sc0 bi0
    by_cases hk : hasSub cl k = true
    · simp only [keywordScan, hk, if_true]
      rw [ih]
      simp only [List.any_cons, List.filter_cons, hk, if_true, List.map_cons,
        List.sum_cons, List.foldl_cons, Prod.mk.injEq]
      refine ⟨by simp, ?_, ?_⟩
      · rw [qAdd_eq, qMul_eq]
        push_cast
        ring
      · congr 1
        split <;> omega
    · have hk' : hasSub cl k = false := by simpa using hk
      simp only [keywordScan, hk', Bool.false_eq_true, if_false]
      rw [ih]
      simp [List.any_cons, List.filter_cons, hk']

/-- The month bonus of `_direct_text_search`: 15.0 when the month filter is
set and occurs in the date, else 0. -/
def monthBonus (mf : Option Str) (date : Str) : ℚ :=
  match mf with
  | some f => if hasSub date f then 15 else 0
  | none => 0

theorem scoreEntry_some (kws : List Str) (mf : Option Str)
    (date content : Str) (h : Hit)
    (hs : scoreEntry kws mf date content = some h) :
    h.date = date ∧ h.title = str "Diario " ++ date ∧
    h.score = monthBonus mf date +
      ((kws.filter (fun k => hasSub (pyLower content) k)).map
        (fun k => (countSub k (pyLower content) : ℚ) * (5 + (k.length : ℚ)))).sum ∧
    h.content = mkSnippet content
      ((kws.filter (fun k => hasSub (pyLower content) k)).foldl
        (fun bi k => max bi ((findSubIdx k (pyLower content)).getD 0)) 0) := by
  cases mf with
  | none =>
    simp only [scoreEntry] at hs
    rw [keywordScan_spec] at hs
    split at hs
    · injection hs with he
      subst he
      exact ⟨rfl, rfl, by simp [monthBonus], rfl⟩
    · exact absurd hs (by simp)
  | some f =>
    by_cases hsub : hasSub date f = true
    · simp only [scoreEntry, hsub, if_true] at hs
      rw [keywordScan_spec] at hs
      split at hs
      · injection hs with he
        subst he
        exact ⟨rfl, rfl, by simp [monthBonus, hsub], rfl⟩
      · exact absurd hs (by simp)
    · have hsub' : hasSub date f = false := by simpa using hsub
      simp only [scoreEntry, hsub', Bool.false_eq_true, if_false] at hs
      rw [keywordScan_spec] at hs
      split at hs
      · injection hs with he
        subst he
        exact ⟨rfl, rfl, by simp [monthBonus, hsub'], rfl⟩
      · exact absurd hs (by simp)

theorem scoreEntry_none (kws : List Str) (mf : Option Str)
    (date content : Str)
    (hM : ∀ f, mf = some f → hasSub date f = false)
    (hK : ∀ k ∈ kws, hasSub (pyLower content) k = false) :
    scoreEntry kws mf date content = none := by
  have hany : kws.any (fun k => hasSub (pyLower content) k) = false := by
    rw [List.any_eq_false]
    intro k hkk
    simp [hK k hkk]
  cases mf with
  | none =>
    simp only [scoreEntry]
    rw [keywordScan_spec]
    rw [if_neg (by simp [hany])]
  | some f =>
    have hsub := hM f rfl
    simp only [scoreEntry, hsub, Bool.false_eq_true, if_false]
    rw [keywordScan_spec]
    rw [if_neg (by simp [hany])]

theorem mem_direct_text_search (entries : List (Str × Str)) (query : Str)
    (limit : Nat) (h : Hit) (hmem : h ∈ direct_text_search entries query limit) :
    ∃ p ∈ entries,
      scoreEntry (directKeywordList (pyLower query))
        (directMonthFilter (pyLower query)) p.1 p.2 = some h := by
  simp only [direct_text_search] at hmem
  have hm2 := (mem_sortByDesc _ _ _).1 (List.mem_of_mem_take hmem)
  rcases List.mem_filterMap.1 hm2 with ⟨p, hp, hsc⟩
  exact ⟨p, hp, hsc⟩

end Memvid

open PyStr in
/-- C9 (divergence): for the query "ottobre" and the entry
"gita in ottobre bella", the matcher scores 39, while the claim's formula —
month bonus plus the sum over the *extracted* keywords — gives 27: the
detected month name is appended to the keyword list again, so its
occurrences are counted twice. -/
theorem direct_score_month_double_count :
    (Memvid.direct_text_search
        [(str "2025-10-05", str "gita in ottobre bella")] (str "ottobre") 5).map
      Memvid.Hit.score = [39] ∧
    Memvid.monthBonus (Memvid.directMonthFilter (pyLower (str "ottobre")))
        (str "2025-10-05") +
      (((Memvid.directKeywords (pyLower (str "ottobre"))).filter
          (fun k => hasSub (pyLower (str "gita in ottobre bella")) k)).map
        (fun k => (countSub k (pyLower (str "gita in ottobre bella")) : ℚ) *
          (5 + (k.length : ℚ)))).sum = 27 ∧
    (39 : ℚ) ≠ 27 := by
  refine ⟨by decide, ?_, by norm_num⟩
  rw [show Memvid.directKeywords (pyLower (str "ottobre")) = [str "ottobre"]
      from by decide]
  rw [show Memvid.directMonthFilter (pyLower (str "ottobre")) =
      some ('-' :: (str "10" ++ ['-'])) from by decide]
  rw [show Memvid.monthBonus (some ('-' :: (str "10" ++ ['-'])))
      (str "2025-10-05") = 15 from by
    simp only [Memvid.monthBonus]
    rw [if_pos (by decide)]]
  rw [show (([str "ottobre"]).filter
      (fun k => hasSub (pyLower (str "gita in ottobre bella")) k)) =
      [str "ottobre"] from by decide]
  simp only [List.map_cons, List.map_nil, List.sum_cons, List.sum_nil]
  rw [show countSub (str "ottobre") (pyLower (str "gita in ottobre bella")) = 1
      from by decide]
  rw [show (str "ottobre").length = 7 from by decide]
  norm_num

open PyStr in
/-- C9 (amended): every hit of the direct-text matcher scores its entry as
the month bonus (15 when the detected month's `-MM-` filter occurs in the
date) plus the sum of `occurrences × (5 + length)` over the keyword *list*
— the extracted tokens (lowercased, punctuation-free, non-stopword, length
≥ 3) plus, when the query names a month, that month's name appended once
more; an entry with no month match and no occurring keyword produces no
hit.  The matcher is a total function, so it never raises. -/
theorem direct_score_amended :
    (∀ (entries : List (Str × Str)) (query : Str) (limit : Nat)
        (h : Memvid.Hit), h ∈ Memvid.direct_text_search entries query limit →
      ∃ p ∈ entries, h.date = p.1 ∧
        h.score = Memvid.monthBonus (Memvid.directMonthFilter (pyLower query)) p.1 +
          (((Memvid.directKeywordList (pyLower query)).filter
              (fun k => hasSub (pyLower p.2) k)).map
            (fun k => (countSub k (pyLower p.2) : ℚ) * (5 + (k.length : ℚ)))).sum) ∧
    (∀ (query : Str) (date content : Str),
      (∀ f, Memvid.directMonthFilter (pyLower query) = some f →
        hasSub date f = false) →
      (∀ k ∈ Memvid.directKeywordList (pyLower query),
        hasSub (pyLower content) k = false) →
      Memvid.scoreEntry (Memvid.directKeywordList (pyLower query))
        (Memvid.directMonthFilter (pyLower query)) date content = none) := by
  constructor
  · intro entries query limit h hmem
    rcases Memvid.mem_direct_text_search entries query limit h hmem
      with ⟨p, hp, hsc⟩
    rcases Memvid.scoreEntry_some _ _ _ _ _ hsc with ⟨hd, _, hscore, _⟩
    exact ⟨p, hp, hd, hscore⟩
  · intro query date content hM hK
    exact Memvid.scoreEntry_none _ _ _ _ hM hK

open PyStr in
/-- Witness for C9 (amended): the single hit for query "ottobre" over the
entry "gita in ottobre bella" satisfies the score decomposition, and an
entry with no match at all is omitted. -/
theorem direct_score_amended_witness :
    (∃ p ∈ [(str "2025-10-05", str "gita in ottobre bella")],
      (Memvid.Hit.mk (str "2025-10-05") (str "gita in ottobre bella") 39
        (str "Diario 2025-10-05")).date = p.1 ∧
      (Memvid.Hit.mk (str "2025-10-05") (str "gita in ottobre bella") 39
        (str "Diario 2025-10-05")).score =
        Memvid.monthBonus (Memvid.directMonthFilter (pyLower (str "ottobre"))) p.1 +
        (((Memvid.directKeywordList (pyLower (str "ottobre"))).filter
            (fun k => hasSub (pyLower p.2) k)).map
          (fun k => (countSub k (pyLower p.2) : ℚ) * (5 + (k.length : ℚ)))).sum) ∧
    Memvid.scoreEntry (Memvid.directKeywordList (pyLower (str "vacanza")))
      (Memvid.directMonthFilter (pyLower (str "vacanza")))
      (str "2024-01-01") (str "zzz") = none := by
  constructor
  · exact direct_score_amended.1 [(str "2025-10-05", str "gita in ottobre bella")]
      (str "ottobre") 5 _ (by decide)
  · exact direct_score_amended.2 (str "vacanza") (str "2024-01-01") (str "zzz")
      (by
        intro f hf
        rw [show Memvid.directMonthFilter (pyLower (str "vacanza")) = none
            from by decide] at hf
        exact absurd hf (by simp)) (by decide)

/-- The entry used to separate the snippet window from the highest-scoring
keyword: `aaaa` occurs only at position 0, `bbb` only at position 121. -/
def snippetProbeContent : Str :=
  str "aaaa " ++ List.replicate 115 'z' ++ str " bbb end"

set_option maxRecDepth 10000 in
open PyStr in
/-- C8 (divergence): for the query "aaaa bbb" over `snippetProbeContent`,
the keyword `aaaa` is the highest-scoring one (one occurrence, weight
5+4=9, against 5+3=8 for `bbb`) and first occurs at index 0, yet the
returned snippet is the window around index 121 (the *largest*
first-occurrence index over all matched keywords) and does not contain
`aaaa` at all — so it is not a window centered on the first occurrence of
the highest-scoring keyword. -/
theorem direct_snippet_not_near_best_keyword :
    (Memvid.direct_text_search [(str "2024-01-01", snippetProbeContent)]
        (str "aaaa bbb") 5).map Memvid.Hit.content =
      [str "..." ++ snippetProbeContent.drop 21] ∧
    hasSub (str "..." ++ snippetProbeContent.drop 21) (str "aaaa") = false ∧
    findSubIdx (str "aaaa") (pyLower snippetProbeContent) = some 0 ∧
    findSubIdx (str "bbb") (pyLower snippetProbeContent) = some 121 ∧
    countSub (str "aaaa") (pyLower snippetProbeContent) = 1 ∧
    countSub (str "bbb") (pyLower snippetProbeContent) = 1 ∧
    ((1 : ℚ) * (5 + 4) > (1 : ℚ) * (5 + 3)) := by
  refine ⟨by decide, by decide, by decide, by decide, by decide, by decide,
    by norm_num⟩

open PyStr in
/-- C8 (amended): every hit of the direct-text matcher carries the snippet
built by `mkSnippet` around the *largest* first-occurrence index among the
matched keywords (0 when only the month filter matched); and `mkSnippet`
is the slice `content[max(0,i-100) : min(len,i+300)]` with `...` prepended
exactly when the window is truncated on the left and appended exactly when
it is truncated on the right (falling back to `content[:300] + "..."` when
the ellipsed slice is whitespace-only). -/
theorem direct_snippet_amended :
    (∀ (entries : List (Str × Str)) (query : Str) (limit : Nat)
        (h : Memvid.Hit), h ∈ Memvid.direct_text_search entries query limit →
      ∃ p ∈ entries, h.date = p.1 ∧
        h.content = Memvid.mkSnippet p.2
          (((Memvid.directKeywordList (pyLower query)).filter
              (fun k => hasSub (pyLower p.2) k)).foldl
            (fun bi k => max bi ((findSubIdx k (pyLower p.2)).getD 0)) 0)) ∧
    (∀ (content : Str) (i : Nat),
      Memvid.mkSnippet content i =
        (let core := (content.drop (i - 100)).take
            (min content.length (i + 300) - (i - 100))
         let flat := (if 0 < i - 100 then str "..." else []) ++ core ++
            (if min content.length (i + 300) < content.length
             then str "..." else [])
         if stripIsEmpty flat then content.take 300 ++ str "..." else flat)) := by
  constructor
  · intro entries query limit h hmem
    rcases Memvid.mem_direct_text_search entries query limit h hmem
      with ⟨p, hp, hsc⟩
    rcases Memvid.scoreEntry_some _ _ _ _ _ hsc with ⟨hd, _, _, hsnip⟩
    exact ⟨p, hp, hd, hsnip⟩
  · intro content i
    simp only [Memvid.mkSnippet]
    by_cases h1 : 0 < i - 100 <;>
      by_cases h2 : min content.length (i + 300) < content.length <;>
      simp [h1, h2, List.append_assoc]

open PyStr in
/-- Witness for C8 (amended): the hit for query "ottobre" carries the
`mkSnippet` of its entry at the largest matched first-occurrence index. -/
theorem direct_snippet_amended_witness :
    (∃ p ∈ [(str "2025-10-05", str "gita in ottobre bella")],
      (Memvid.Hit.mk (str "2025-10-05") (str "gita in ottobre bella") 39
        (str "Diario 2025-10-05")).date = p.1 ∧
      (Memvid.Hit.mk (str "2025-10-05") (str "gita in ottobre bella") 39
        (str "Diario 2025-10-05")).content =
        Memvid.mkSnippet p.2
          (((Memvid.directKeywordList (pyLower (str "ottobre"))).filter
              (fun k => hasSub (pyLower p.2) k)).foldl
            (fun bi k => max bi ((findSubIdx k (pyLower p.2)).getD 0)) 0)) ∧
    Memvid.mkSnippet (str "breve testo") 0 =
      (let core := ((str "breve testo").drop 0).take
          (min (str "breve testo").length 300 - 0)
       let flat := (if (0 : Nat) < 0 then str "..." else []) ++ core ++
          (if min (str "breve testo").length 300 < (str "breve testo").length
           then str "..." else [])
       if stripIsEmpty flat then (str "breve testo").take 300 ++ str "..."
       else flat) := by
  constructor
  · exact direct_snippet_amended.1 [(str "2025-10-05", str "gita in ottobre bella")]
      (str "ottobre") 5 _ (by decide)
  · exact direct_snippet_amended.2 (str "breve testo") 0
